import Mathlib

/-!
Verification of the DES teaching tool (64-bit DES core, block-cipher modes of
operation with PKCS-style padding, and the diagnostic variant engine).

The definitions below are a shallow embedding of the TypeScript source:
  * `src/src/lib/des.ts` — bit/table engine, key schedule, single-block cipher;
  * the mode-of-operation layer (`padTo8Bytes`, `unpadPkcs`, `xorBlocks`,
    `incrementCounter`, `encryptBytesWithMode`, `decryptBytesWithMode`);
  * the diagnostic engine (`normalizeBlockHex`, `runVariant`,
    `diagnoseDESSubmission`).

JavaScript `number[]` bit sequences are modelled as `List Nat` (the code only
ever stores 0/1 there), hex strings as `List Char`, and `Uint8Array` byte
buffers as `List Nat` with entries below 256.  Out-of-range list indexing,
which in JavaScript yields `undefined` and is coerced to 0 by the bitwise
operators used on it, is modelled with `List.getD _ 0`.
-/

namespace DES

abbrev Bits := List Nat

def hexLookup : List Char :=
  "0123456789abcdef".toList

def IP_TABLE : List Nat :=
  [58, 50, 42, 34, 26, 18, 10, 2, 60, 52, 44, 36, 28, 20, 12, 4, 62, 54, 46, 38,
   30, 22, 14, 6, 64, 56, 48, 40, 32, 24, 16, 8, 57, 49, 41, 33, 25, 17, 9, 1, 59,
   51, 43, 35, 27, 19, 11, 3, 61, 53, 45, 37, 29, 21, 13, 5, 63, 55, 47, 39, 31,
   23, 15, 7]

def FP_TABLE : List Nat :=
  [40, 8, 48, 16, 56, 24, 64, 32, 39, 7, 47, 15, 55, 23, 63, 31, 38, 6, 46, 14,
   54, 22, 62, 30, 37, 5, 45, 13, 53, 21, 61, 29, 36, 4, 44, 12, 52, 20, 60, 28,
   35, 3, 43, 11, 51, 19, 59, 27, 34, 2, 42, 10, 50, 18, 58, 26, 33, 1, 41, 9, 49,
   17, 57, 25]

def E_TABLE : List Nat :=
  [32, 1, 2, 3, 4, 5, 4, 5, 6, 7, 8, 9, 8, 9, 10, 11, 12, 13, 12, 13, 14, 15, 16,
   17, 16, 17, 18, 19, 20, 21, 20, 21, 22, 23, 24, 25, 24, 25, 26, 27, 28, 29, 28,
   29, 30, 31, 32, 1]

def P_TABLE : List Nat :=
  [16, 7, 20, 21, 29, 12, 28, 17, 1, 15, 23, 26, 5, 18, 31, 10, 2, 8, 24, 14, 32,
   27, 3, 9, 19, 13, 30, 6, 22, 11, 4, 25]

def PC1_TABLE : List Nat :=
  [57, 49, 41, 33, 25, 17, 9, 1, 58, 50, 42, 34, 26, 18, 10, 2, 59, 51, 43, 35,
   27, 19, 11, 3, 60, 52, 44, 36, 63, 55, 47, 39, 31, 23, 15, 7, 62, 54, 46, 38,
   30, 22, 14, 6, 61, 53, 45, 37, 29, 21, 13, 5, 28, 20, 12, 4]

def PC2_TABLE : List Nat :=
  [14, 17, 11, 24, 1, 5, 3, 28, 15, 6, 21, 10, 23, 19, 12, 4, 26, 8, 16, 7, 27, 20,
   13, 2, 41, 52, 31, 37, 47, 55, 30, 40, 51, 45, 33, 48, 44, 49, 39, 56, 34, 53,
   46, 42, 50, 36, 29, 32]

def SHIFT_SCHEDULE : List Nat :=
  [1, 1, 2, 2, 2, 2, 2, 2, 1, 2, 2, 2, 2, 2, 2, 1]

def S_BOXES : List (List (List Nat)) :=
  [[[14, 4, 13, 1, 2, 15, 11, 8, 3, 10, 6, 12, 5, 9, 0, 7],
    [0, 15, 7, 4, 14, 2, 13, 1, 10, 6, 12, 11, 9, 5, 3, 8],
    [4, 1, 14, 8, 13, 6, 2, 11, 15, 12, 9, 7, 3, 10, 5, 0],
    [15, 12, 8, 2, 4, 9, 1, 7, 5, 11, 3, 14, 10, 0, 6, 13]],
   [[15, 1, 8, 14, 6, 11, 3, 4, 9, 7, 2, 13, 12, 0, 5, 10],
    [3, 13, 4, 7, 15, 2, 8, 14, 12, 0, 1, 10, 6, 9, 11, 5],
    [0, 14, 7, 11, 10, 4, 13, 1, 5, 8, 12, 6, 9, 3, 2, 15],
    [13, 8, 10, 1, 3, 15, 4, 2, 11, 6, 7, 12, 0, 5, 14, 9]],
   [[10, 0, 9, 14, 6, 3, 15, 5, 1, 13, 12, 7, 11, 4, 2, 8],
    [13, 7, 0, 9, 3, 4, 6, 10, 2, 8, 5, 14, 12, 11, 15, 1],
    [13, 6, 4, 9, 8, 15, 3, 0, 11, 1, 2, 12, 5, 10, 14, 7],
    [1, 10, 13, 0, 6, 9, 8, 7, 4, 15, 14, 3, 11, 5, 2, 12]],
   [[7, 13, 14, 3, 0, 6, 9, 10, 1, 2, 8, 5, 11, 12, 4, 15],
    [13, 8, 11, 5, 6, 15, 0, 3, 4, 7, 2, 12, 1, 10, 14, 9],
    [10, 6, 9, 0, 12, 11, 7, 13, 15, 1, 3, 14, 5, 2, 8, 4],
    [3, 15, 0, 6, 10, 1, 13, 8, 9, 4, 5, 11, 12, 7, 2, 14]],
   [[2, 12, 4, 1, 7, 10, 11, 6, 8, 5, 3, 15, 13, 0, 14, 9],
    [14, 11, 2, 12, 4, 7, 13, 1, 5, 0, 15, 10, 3, 9, 8, 6],
    [4, 2, 1, 11, 10, 13, 7, 8, 15, 9, 12, 5, 6, 3, 0, 14],
    [11, 8, 12, 7, 1, 14, 2, 13, 6, 15, 0, 9, 10, 4, 5, 3]],
   [[12, 1, 10, 15, 9, 2, 6, 8, 0, 13, 3, 4, 14, 7, 5, 11],
    [10, 15, 4, 2, 7, 12, 9, 5, 6, 1, 13, 14, 0, 11, 3, 8],
    [9, 14, 15, 5, 2, 8, 12, 3, 7, 0, 4, 10, 1, 13, 11, 6],
    [4, 3, 2, 12, 9, 5, 15, 10, 11, 14, 1, 7, 6, 0, 8, 13]],
   [[4, 11, 2, 14, 15, 0, 8, 13, 3, 12, 9, 7, 5, 10, 6, 1],
    [13, 0, 11, 7, 4, 9, 1, 10, 14, 3, 5, 12, 2, 15, 8, 6],
    [1, 4, 11, 13, 12, 3, 7, 14, 10, 15, 6, 8, 0, 5, 9, 2],
    [6, 11, 13, 8, 1, 4, 10, 7, 9, 5, 0, 15, 14, 2, 3, 12]],
   [[13, 2, 8, 4, 6, 15, 11, 1, 10, 9, 3, 14, 5, 0, 12, 7],
    [1, 15, 13, 8, 10, 3, 7, 4, 12, 5, 6, 11, 0, 14, 9, 2],
    [7, 11, 4, 1, 9, 12, 14, 2, 0, 6, 10, 13, 15, 3, 5, 8],
    [2, 1, 14, 7, 4, 10, 8, 13, 15, 12, 9, 0, 3, 5, 6, 11]]]

/-- `permute(bits, table)`: `table.map((index) => bits[index - 1])`. -/
def permute (bits : Bits) (table : List Nat) : Bits :=
  table.map (fun index => bits.getD (index - 1) 0)

/-- `leftShift(bits, shift)`: cyclic rotation by `shift % bits.length`. -/
def leftShift (bits : Bits) (shift : Nat) : Bits :=
  let normalized := shift % bits.length
  bits.drop normalized ++ bits.take normalized

/-- `xorBits(a, b)`: `a.map((bit, idx) => (bit ^ b[idx]) & 1)`. -/
def xorBits (a b : Bits) : Bits :=
  (List.range a.length).map (fun idx => (a.getD idx 0 ^^^ b.getD idx 0) &&& 1)

/-- `chunkBits(bits, size)`: the loop `for (i = 0; i < len; i += size)
push(bits.slice(i, i + size))`, i.e. `⌈len / size⌉` iterations, the `k`-th
pushing `bits.slice(k*size, k*size + size)`. -/
def chunkBits (bits : Bits) (size : Nat) : List Bits :=
  (List.range ((bits.length + size - 1) / size)).map
    (fun k => (bits.drop (k * size)).take size)

/-- `toHexDigit(bits)`: fold the (at most four) bits into a value and look it
up in `hexLookup`.  The default `'0'` stands for the unreachable
`undefined` lookup on a value outside the table. -/
def toHexDigit (bits : Bits) : Char :=
  let value := bits.foldl (fun acc bit => (acc <<< 1) ||| bit) 0
  hexLookup.getD value '0'

def bitsToHex (bits : Bits) : List Char :=
  (chunkBits bits 4).map toHexDigit

/-- `parseInt(char, 16)` on a single character; an unparsable character gives
`NaN`, whose bits all read 0 under JavaScript bitwise coercion, so it is
modelled as 0. -/
def hexCharToNat (c : Char) : Nat :=
  match c with
  | '0' => 0 | '1' => 1 | '2' => 2 | '3' => 3 | '4' => 4
  | '5' => 5 | '6' => 6 | '7' => 7 | '8' => 8 | '9' => 9
  | 'a' => 10 | 'b' => 11 | 'c' => 12 | 'd' => 13 | 'e' => 14 | 'f' => 15
  | 'A' => 10 | 'B' => 11 | 'C' => 12 | 'D' => 13 | 'E' => 14 | 'F' => 15
  | _ => 0

/-- The four bits `(value >> 3) & 1, (value >> 2) & 1, (value >> 1) & 1,
value & 1` pushed per character of the padded hex string. -/
def hexCharBits (c : Char) : Bits :=
  let value := hexCharToNat c
  [(value >>> 3) &&& 1, (value >>> 2) &&& 1, (value >>> 1) &&& 1, value &&& 1]

/-- `String.padStart(n, c)`. -/
def padStartList (l : List Char) (n : Nat) (c : Char) : List Char :=
  List.replicate (n - l.length) c ++ l

/-- `String.padEnd(n, c)`. -/
def padEndList (l : List Char) (n : Nat) (c : Char) : List Char :=
  l ++ List.replicate (n - l.length) c

/-- `hexToBits(hex, size)`: lower-case, left-pad to `size / 4` characters,
expand each character to four bits MSB-first, keep the last `size` bits. -/
def hexToBits (hex : List Char) (size : Nat) : Bits :=
  let padded := padStartList (hex.map Char.toLower) (size / 4) '0'
  let bits := (padded.map hexCharBits).flatten
  bits.drop (bits.length - size)

def initial_permutation (block : Bits) : Bits := permute block IP_TABLE

def final_permutation (block : Bits) : Bits := permute block FP_TABLE

def expansion_permutation (bits : Bits) : Bits := permute bits E_TABLE

def p_box_permutation (bits : Bits) : Bits := permute bits P_TABLE

/-- One six-bit group pushed through its S-box (row from bits 0 and 5,
column from bits 1–4), expanded back to four output bits. -/
def sBoxChunk (index : Nat) (chunk : Bits) : Bits :=
  let row := (chunk.getD 0 0 <<< 1) ||| chunk.getD 5 0
  let column :=
    (chunk.getD 1 0 <<< 3) ||| (chunk.getD 2 0 <<< 2) ||| (chunk.getD 3 0 <<< 1) |||
      chunk.getD 4 0
  let sValue := ((S_BOXES.getD index []).getD row []).getD column 0
  [(sValue >>> 3) &&& 1, (sValue >>> 2) &&& 1, (sValue >>> 1) &&& 1, sValue &&& 1]

def s_box_substitution (bits : Bits) : Bits :=
  ((chunkBits bits 6).enum.map (fun p => sBoxChunk p.1 p.2)).flatten

structure FOut where
  expanded : Bits
  xorResult : Bits
  sBoxResult : Bits
  pBoxResult : Bits

def f_function (right subKey : Bits) : FOut :=
  let expanded := expansion_permutation right
  let xorResult := xorBits expanded subKey
  let sBoxResult := s_box_substitution xorResult
  let pBoxResult := p_box_permutation sBoxResult
  { expanded := expanded, xorResult := xorResult, sBoxResult := sBoxResult,
    pBoxResult := pBoxResult }

structure RoundOut where
  left : Bits
  right : Bits
  expanded : Bits
  xorResult : Bits
  sBoxResult : Bits
  pBoxResult : Bits

def feistel_round (left right subKey : Bits) : RoundOut :=
  let f := f_function right subKey
  { left := right, right := xorBits left f.pBoxResult, expanded := f.expanded,
    xorResult := f.xorResult, sBoxResult := f.sBoxResult, pBoxResult := f.pBoxResult }

structure KeyScheduleRound where
  round : Nat
  shifts : Nat
  c : List Char
  d : List Char
  subKey : List Char

structure KeyScheduleInfo where
  parityDroppedKey : List Char
  rounds : List KeyScheduleRound

structure SubkeysResult where
  parityDroppedKey : List Char
  rounds : List KeyScheduleRound
  subKeys : List (List Char)

/-- The `SHIFT_SCHEDULE.forEach` body of `generate_subkeys`: thread the C/D
registers through the schedule, collecting the round records and subkeys. -/
def subkeyRounds (schedule : List Nat) (index : Nat) (c d : Bits) :
    List KeyScheduleRound × List (List Char) :=
  match schedule with
  | [] => ([], [])
  | shift :: rest =>
    let c2 := leftShift c shift
    let d2 := leftShift d shift
    let subKeyBits := permute (c2 ++ d2) PC2_TABLE
    let subKeyHex := bitsToHex subKeyBits
    let next := subkeyRounds rest (index + 1) c2 d2
    ({ round := index + 1, shifts := shift, c := bitsToHex c2, d := bitsToHex d2,
       subKey := subKeyHex } :: next.1,
     subKeyHex :: next.2)

/-- `generate_subkeys(keyHex)`: PC-1, split into C/D, sixteen shift-and-PC-2
rounds.  The key is first normalized via `keyHex.padEnd(16, '0').slice(0, 16)`. -/
def generate_subkeys (keyHex : List Char) : SubkeysResult :=
  let keyBits := hexToBits ((padEndList keyHex 16 '0').take 16) 64
  let parityDropped := permute keyBits PC1_TABLE
  let pair := subkeyRounds SHIFT_SCHEDULE 0 (parityDropped.take 28) (parityDropped.drop 28)
  { parityDroppedKey := bitsToHex parityDropped, rounds := pair.1, subKeys := pair.2 }

inductive CipherMode
  | encrypt
  | decrypt
deriving DecidableEq, Repr

structure RoundInfo where
  round : Nat
  left : List Char
  right : List Char
  subKey : List Char
  expanded : List Char
  xorWithKey : List Char
  sBoxOutput : List Char
  pBoxOutput : List Char
  roundOutput : List Char

/-- Everything `runCore` returns except the random `nanoid()` identifier,
which is presentation-only and excluded from the model. -/
structure DESResult where
  mode : CipherMode
  inputHex : List Char
  outputHex : List Char
  ipOutput : List Char
  fpOutput : List Char
  rounds : List RoundInfo
  subKeys : List (List Char)
  keySchedule : KeyScheduleInfo

/-- The `sequence.forEach` body of `runCore`: run one Feistel round per subkey,
recording the trace and returning the final left/right halves. -/
def roundsLoop (sequence : List (List Char)) (index : Nat) (left right : Bits) :
    List RoundInfo × Bits × Bits :=
  match sequence with
  | [] => ([], left, right)
  | subKeyHex :: rest =>
    let subKeyBits := hexToBits subKeyHex 48
    let r := feistel_round left right subKeyBits
    let info : RoundInfo :=
      { round := index + 1, left := bitsToHex left, right := bitsToHex right,
        subKey := subKeyHex, expanded := bitsToHex r.expanded,
        xorWithKey := bitsToHex r.xorResult, sBoxOutput := bitsToHex r.sBoxResult,
        pBoxOutput := bitsToHex r.pBoxResult,
        roundOutput := bitsToHex (r.left ++ r.right) }
    let next := roundsLoop rest (index + 1) r.left r.right
    (info :: next.1, next.2)

def runCore (inputHex keyHex : List Char) (mode : CipherMode) : DESResult :=
  let block := hexToBits inputHex 64
  let ip := initial_permutation block
  let sk := generate_subkeys keyHex
  let left := ip.take 32
  let right := ip.drop 32
  let sequence := if mode = CipherMode.encrypt then sk.subKeys else sk.subKeys.reverse
  let loop := roundsLoop sequence 0 left right
  let preOutput := loop.2.2 ++ loop.2.1
  let fp := final_permutation preOutput
  { mode := mode, inputHex := inputHex.map Char.toLower, outputHex := bitsToHex fp,
    ipOutput := bitsToHex ip, fpOutput := bitsToHex fp, rounds := loop.1,
    subKeys := sequence,
    keySchedule := { parityDroppedKey := sk.parityDroppedKey, rounds := sk.rounds } }

def des_encrypt (plaintextHex keyHex : List Char) : DESResult :=
  runCore plaintextHex keyHex CipherMode.encrypt

def des_decrypt (ciphertextHex keyHex : List Char) : DESResult :=
  runCore ciphertextHex keyHex CipherMode.decrypt

/-! ### Mode-of-operation layer (byte-oriented, from the application module) -/

abbrev Bytes := List Nat

/-- `bytesToHex`: each byte printed as two lowercase hex digits
(`byte.toString(16).padStart(2, '0')`; `Uint8Array` entries are below 256,
so the two digits are `byte / 16` and `byte % 16`). -/
def bytesToHex (bytes : Bytes) : List Char :=
  (bytes.map (fun byte => [hexLookup.getD (byte / 16) '0', hexLookup.getD (byte % 16) '0'])).flatten

/-- `hexToBytes`: parse consecutive character pairs.  The source throws on an
odd-length or non-hex string; in this development it is only ever applied to
the 16-character lowercase output of `bitsToHex`, so the error branch is
unreachable and a trailing unpaired character is simply dropped. -/
def hexToBytes : List Char → Bytes
  | c1 :: c2 :: rest => (16 * hexCharToNat c1 + hexCharToNat c2) :: hexToBytes rest
  | _ => []

/-- PKCS#5/7-style padding to 8-byte DES blocks. -/
def padTo8Bytes (bytes : Bytes) : Bytes :=
  let pad := 8 - bytes.length % 8
  let padValue := if pad = 0 then 8 else pad
  bytes ++ List.replicate padValue padValue

/-- `unpadPkcs`: strip the trailing padding when the final byte is a plausible
pad length and all of the claimed pad bytes agree; otherwise return the bytes
unchanged. -/
def unpadPkcs (bytes : Bytes) : Bytes :=
  if bytes.length = 0 then bytes
  else
    let pad := bytes.getD (bytes.length - 1) 0
    if pad < 1 ∨ pad > 8 ∨ pad > bytes.length then bytes
    else if ∀ i ∈ List.range pad, bytes.getD (bytes.length - 1 - i) 0 = pad then
      bytes.take (bytes.length - pad)
    else bytes

/-- `xorBlocks`: XOR of two 8-byte blocks (out-of-range reads coerce to 0). -/
def xorBlocks (a b : Bytes) : Bytes :=
  (List.range 8).map (fun i => a.getD i 0 ^^^ b.getD i 0)

/-- The ripple-carry of `incrementCounter`, walking from the last byte toward
the first: add 1 modulo 256 and keep carrying while the result is 0. -/
def incCarry : Bytes → Bytes
  | [] => []
  | x :: xs =>
    let x2 := (x + 1) &&& 255
    if x2 = 0 then x2 :: incCarry xs else x2 :: xs

/-- `incrementCounter` (big-endian increment of the 8-byte CTR counter; the
source loop hard-codes indices 7..0, which exactly cover the 8-byte counters
used by CTR mode). -/
def incrementCounter (counter : Bytes) : Bytes :=
  (incCarry counter.reverse).reverse

/-- `encryptBlock` (byte view): DES-encrypt one 8-byte block through the hex
interface.  The `DESResult` trace that the source also returns is
presentation-only and not modelled. -/
def encryptBlock (block : Bytes) (keyHex : List Char) : Bytes :=
  hexToBytes (des_encrypt (bytesToHex block) keyHex).outputHex

/-- `decryptBlock` (byte view). -/
def decryptBlock (block : Bytes) (keyHex : List Char) : Bytes :=
  hexToBytes (des_decrypt (bytesToHex block) keyHex).outputHex

inductive DesMode
  | ECB
  | CBC
  | CFB
  | OFB
  | CTR
deriving DecidableEq, Repr

/-- The typed failures of the mode layer / text-decrypt pipeline:
`noBlocks` = "No blocks were encrypted",
`missingIv` = "Ciphertext must include an 8-byte IV/nonce.",
`lengthError` = "Ciphertext length must be a multiple of 8 bytes.". -/
inductive ModeError
  | noBlocks
  | missingIv
  | lengthError
deriving DecidableEq, Repr

def cbcEncryptBlocks (keyHex : List Char) (prev : Bytes) : List Bytes → List Bytes
  | [] => []
  | block :: rest =>
    let c := encryptBlock (xorBlocks block prev) keyHex
    c :: cbcEncryptBlocks keyHex c rest

def cfbEncryptBlocks (keyHex : List Char) (feedback : Bytes) : List Bytes → List Bytes
  | [] => []
  | block :: rest =>
    let keystream := encryptBlock feedback keyHex
    let c := xorBlocks block keystream
    c :: cfbEncryptBlocks keyHex c rest

def ofbEncryptBlocks (keyHex : List Char) (ofb : Bytes) : List Bytes → List Bytes
  | [] => []
  | block :: rest =>
    let keystream := encryptBlock ofb keyHex
    xorBlocks block keystream :: ofbEncryptBlocks keyHex keystream rest

def ctrEncryptBlocks (keyHex : List Char) (counter : Bytes) : List Bytes → List Bytes
  | [] => []
  | block :: rest =>
    let keystream := encryptBlock counter keyHex
    xorBlocks block keystream :: ctrEncryptBlocks keyHex (incrementCounter counter) rest

/-- `encryptBytesWithMode`.  The `iv` argument models `customIv ??
generateRandomBlock()` (IV generation is nondeterministic at the UI boundary;
the claims fix the IV).  `firstBlockResult` is null exactly when the per-block
loop never ran, i.e. when the plaintext is empty, which is when the source
throws "No blocks were encrypted". -/
def encryptBytesWithMode (plaintext : Bytes) (keyHex : List Char) (mode : DesMode)
    (iv : Bytes) : Except ModeError Bytes :=
  let chunks := chunkBits plaintext 8
  match mode with
  | .ECB =>
    if plaintext.length = 0 then .error .noBlocks
    else .ok ((chunks.map (fun block => encryptBlock block keyHex)).flatten)
  | .CBC =>
    if plaintext.length = 0 then .error .noBlocks
    else .ok (iv ++ (cbcEncryptBlocks keyHex iv chunks).flatten)
  | .CFB =>
    if plaintext.length = 0 then .error .noBlocks
    else .ok (iv ++ (cfbEncryptBlocks keyHex iv chunks).flatten)
  | .OFB =>
    if plaintext.length = 0 then .error .noBlocks
    else .ok (iv ++ (ofbEncryptBlocks keyHex iv chunks).flatten)
  | .CTR =>
    if plaintext.length = 0 then .error .noBlocks
    else .ok (iv ++ (ctrEncryptBlocks keyHex iv chunks).flatten)

def cbcDecryptBlocks (keyHex : List Char) (prev : Bytes) : List Bytes → List Bytes
  | [] => []
  | block :: rest =>
    let decrypted := decryptBlock block keyHex
    xorBlocks decrypted prev :: cbcDecryptBlocks keyHex block rest

def cfbDecryptBlocks (keyHex : List Char) (feedback : Bytes) : List Bytes → List Bytes
  | [] => []
  | block :: rest =>
    let keystream := encryptBlock feedback keyHex
    xorBlocks block keystream :: cfbDecryptBlocks keyHex block rest

def ofbDecryptBlocks (keyHex : List Char) (ofb : Bytes) : List Bytes → List Bytes
  | [] => []
  | block :: rest =>
    let keystream := encryptBlock ofb keyHex
    xorBlocks block keystream :: ofbDecryptBlocks keyHex keystream rest

def ctrDecryptBlocks (keyHex : List Char) (counter : Bytes) : List Bytes → List Bytes
  | [] => []
  | block :: rest =>
    let keystream := encryptBlock counter keyHex
    xorBlocks block keystream :: ctrDecryptBlocks keyHex (incrementCounter counter) rest

/-- `decryptBytesWithMode`: ECB decrypts the blocks directly; the other modes
require a 16-byte minimum (8-byte IV prefix plus at least one block), split
the IV off, and run the inverse chain. -/
def decryptBytesWithMode (ciphertext : Bytes) (keyHex : List Char) (mode : DesMode) :
    Except ModeError Bytes :=
  match mode with
  | .ECB =>
    .ok (((chunkBits ciphertext 8).map (fun block => decryptBlock block keyHex)).flatten)
  | .CBC =>
    if ciphertext.length < 16 then .error .missingIv
    else .ok ((cbcDecryptBlocks keyHex (ciphertext.take 8) (chunkBits (ciphertext.drop 8) 8)).flatten)
  | .CFB =>
    if ciphertext.length < 16 then .error .missingIv
    else .ok ((cfbDecryptBlocks keyHex (ciphertext.take 8) (chunkBits (ciphertext.drop 8) 8)).flatten)
  | .OFB =>
    if ciphertext.length < 16 then .error .missingIv
    else .ok ((ofbDecryptBlocks keyHex (ciphertext.take 8) (chunkBits (ciphertext.drop 8) 8)).flatten)
  | .CTR =>
    if ciphertext.length < 16 then .error .missingIv
    else .ok ((ctrDecryptBlocks keyHex (ciphertext.take 8) (chunkBits (ciphertext.drop 8) 8)).flatten)

/-- The decrypt branch of `runTextProcess` once the ciphertext bytes are in
hand: the multiple-of-8 length check, mode-layer decryption, then unpadding. -/
def runTextDecrypt (sourceBytes : Bytes) (keyHex : List Char) (mode : DesMode) :
    Except ModeError Bytes :=
  if sourceBytes.length % 8 ≠ 0 then .error .lengthError
  else (decryptBytesWithMode sourceBytes keyHex mode).map unpadPkcs

/-! ### Diagnostic variant engine -/

/-- The character class `[0-9a-f]` taken case-insensitively. -/
def isHexDigitChar (c : Char) : Bool :=
  hexLookup.contains c.toLower

/-- `normalizeBlockHex`: strip non-hex characters, right-pad with '0' to 16,
truncate to 16, lowercase. -/
def normalizeBlockHex (hex : List Char) : List Char :=
  ((padEndList (hex.filter isHexDigitChar) 16 '0').take 16).map Char.toLower

/-- The `schedule.forEach` body of `generateSubkeysWithSchedule`. -/
def subKeysOnly (schedule : List Nat) (c d : Bits) : List (List Char) :=
  match schedule with
  | [] => []
  | shift :: rest =>
    let c2 := leftShift c shift
    let d2 := leftShift d shift
    bitsToHex (permute (c2 ++ d2) PC2_TABLE) :: subKeysOnly rest c2 d2

/-- `generateSubkeysWithSchedule`: the diagnostics module's own key-schedule
derivation (same PC-1/PC-2 pipeline, normalized key, pluggable shift
schedule). -/
def generateSubkeysWithSchedule (keyHex : List Char) (shiftSchedule : Option (List Nat)) :
    List (List Char) :=
  let keyBits := hexToBits (normalizeBlockHex keyHex) 64
  let parityDropped := permute keyBits PC1_TABLE
  subKeysOnly (shiftSchedule.getD SHIFT_SCHEDULE) (parityDropped.take 28) (parityDropped.drop 28)

/-- `VariantOptions`; `keyOrder = true` models `keyOrder: 'reversed'`, an
empty `swapAfterRound` models the absent optional array. -/
structure VariantOptions where
  skipIP : Bool := false
  skipFP : Bool := false
  skipFinalSwap : Bool := false
  swapAfterRound : List Nat := []
  roundLimit : Option Nat := none
  keyOrder : Bool := false
  shiftSchedule : Option (List Nat) := none

/-- The round loop of `runVariant`, with the optional half-swap after the
rounds listed in `swapAfterRound`. -/
def variantLoop (swapAfterRound : List Nat) (sequence : List (List Char)) (i : Nat)
    (left right : Bits) : Bits × Bits :=
  match sequence with
  | [] => (left, right)
  | subKeyHex :: rest =>
    let subKeyBits := hexToBits subKeyHex 48
    let r := feistel_round left right subKeyBits
    let swapHere := (i + 1) ∈ swapAfterRound
    let l2 := if swapHere then r.right else r.left
    let r2 := if swapHere then r.left else r.right
    variantLoop swapAfterRound rest (i + 1) l2 r2

/-- `runVariant`: the single-block cipher re-run under one structural
mutation. -/
def runVariant (inputHex keyHex : List Char) (options : VariantOptions) : List Char :=
  let block := hexToBits (normalizeBlockHex inputHex) 64
  let ip := if options.skipIP then block else initial_permutation block
  let subKeys := generateSubkeysWithSchedule keyHex options.shiftSchedule
  let sequence := if options.keyOrder then subKeys.reverse else subKeys
  let roundsToRun := min sequence.length (options.roundLimit.getD 16)
  let lr := variantLoop options.swapAfterRound (sequence.take roundsToRun) 0
    (ip.take 32) (ip.drop 32)
  let preOutput := if options.skipFinalSwap then lr.1 ++ lr.2 else lr.2 ++ lr.1
  let fp := if options.skipFP then preOutput else final_permutation preOutput
  bitsToHex fp

/-- One catalog entry.  The JavaScript credit literals (0.6, 0.5, …) undergo
no arithmetic other than the exact `min`/`max` clamp, so exact rationals are
a faithful model. -/
structure DiagPattern where
  code : String
  label : String
  options : VariantOptions
  description : String
  credit : ℚ

/-- The fixed, ordered mistake catalog. -/
def patterns : List DiagPattern :=
  [{ code := "skip-ip-fp", label := "Skipped IP/FP",
     options := { skipIP := true, skipFP := true },
     description := "Student output matches a run with no initial/final permutation.",
     credit := 0.6 },
   { code := "skip-ip", label := "Skipped IP",
     options := { skipIP := true },
     description := "Initial Permutation (IP) was skipped but FP was still applied.",
     credit := 0.5 },
   { code := "no-final-swap", label := "Forgot final swap",
     options := { skipFinalSwap := true },
     description := "Halves were not swapped before the final permutation.",
     credit := 0.6 },
   { code := "swap-after-round-1", label := "Swapped halves after R1",
     options := { swapAfterRound := [1] },
     description := "Left/right halves inverted after round 1.",
     credit := 0.5 },
   { code := "reversed-subkeys", label := "K16-K1 order",
     options := { keyOrder := true },
     description := "Round keys applied in reverse order.",
     credit := 0.4 },
   { code := "two-rounds-only", label := "Stopped after 2 rounds",
     options := { roundLimit := some 2 },
     description := "Execution ended after round 2.",
     credit := 0.2 },
   { code := "four-rounds-only", label := "Stopped after 4 rounds",
     options := { roundLimit := some 4 },
     description := "Execution ended after round 4.",
     credit := 0.3 },
   { code := "all-one-bit-shifts", label := "Wrong shift schedule",
     options := { shiftSchedule := some (List.replicate 16 1) },
     description := "Used 1-bit shifts for all key-schedule rounds.",
     credit := 0.3 }]

structure DiagnosisResult where
  matchedPattern : Option String
  message : String
  variantMatched : Option String
  expectedOutput : List Char
  studentOutput : List Char
  score : ℚ
  tags : List String

structure DiagnoseInput where
  plaintextHex : List Char
  keyHex : List Char
  studentOutputHex : List Char

/-- `diagnoseDESSubmission`: exact match first, then the first catalog variant
reproducing the submission (the early-returning `for` loop is `List.find?`),
else the zero-score unclassified result. -/
def diagnoseDESSubmission (input : DiagnoseInput) : DiagnosisResult :=
  let plaintextHex := normalizeBlockHex input.plaintextHex
  let keyHex := normalizeBlockHex input.keyHex
  let studentOutput := normalizeBlockHex input.studentOutputHex
  let expectedOutput := (des_encrypt plaintextHex keyHex).outputHex
  if studentOutput = expectedOutput then
    { matchedPattern := some "correct", message := "Answer matches expected ciphertext.",
      variantMatched := none, expectedOutput := expectedOutput,
      studentOutput := studentOutput, score := 1, tags := ["correct"] }
  else
    match patterns.find? (fun pattern => runVariant plaintextHex keyHex pattern.options == studentOutput) with
    | some pattern =>
      { matchedPattern := some pattern.code, message := pattern.description,
        variantMatched := some pattern.label, expectedOutput := expectedOutput,
        studentOutput := studentOutput, score := min 1 (max 0 pattern.credit),
        tags := ["incorrect", pattern.code] }
    | none =>
      { matchedPattern := none,
        message := "No known mistake pattern matched. Likely multiple or different errors.",
        variantMatched := none, expectedOutput := expectedOutput,
        studentOutput := studentOutput, score := 0, tags := ["incorrect", "unclassified"] }

/-- One Feistel round viewed as a state transformer on the `(left, right)`
pair, keyed by the subkey hex exactly as `roundsLoop` consumes it.  This is
the form in which the Feistel inversion argument proceeds. -/
def stepHex (subKeyHex : List Char) (s : Bits × Bits) : Bits × Bits :=
  let r := feistel_round s.1 s.2 (hexToBits subKeyHex 48)
  (r.left, r.right)

/-! ## Generic helper lemmas -/

theorem getD_lt {l : List Nat} {n : Nat} (h : ∀ x ∈ l, x < n) (hn : 0 < n) (i : Nat) :
    l.getD i 0 < n := by
  by_cases hi : i < l.length
  · rw [List.getD_eq_getElem l 0 hi]
    exact h _ (List.getElem_mem hi)
  · rw [List.getD_eq_default l 0 (Nat.le_of_not_lt hi)]
    exact hn

theorem and_one_lt_two (a : Nat) : a &&& 1 < 2 := by
  rw [Nat.and_one_is_mod]
  exact Nat.mod_lt _ (by omega)

theorem and_one_xor_cancel (a b : Nat) (ha : a < 2) :
    (((a ^^^ b) &&& 1) ^^^ b) &&& 1 = a := by
  rw [Nat.and_xor_distrib_right, Nat.and_assoc, Nat.and_self,
    Nat.and_xor_distrib_right, Nat.xor_assoc, Nat.xor_self, Nat.xor_zero,
    Nat.and_one_is_mod]
  exact Nat.mod_eq_of_lt ha

theorem length_xorBits (a b : Bits) : (xorBits a b).length = a.length := by
  simp [xorBits]

theorem getElem_xorBits (a b : Bits) (i : Nat) (h : i < (xorBits a b).length) :
    (xorBits a b)[i] = (a.getD i 0 ^^^ b.getD i 0) &&& 1 := by
  simp [xorBits]

theorem allBits_xorBits (a b : Bits) : ∀ x ∈ xorBits a b, x < 2 := by
  intro x hx
  simp only [xorBits, List.mem_map, List.mem_range] at hx
  obtain ⟨i, _, rfl⟩ := hx
  exact and_one_lt_two _

theorem xorBits_cancel {a : Bits} (b : Bits) (ha : ∀ x ∈ a, x < 2) :
    xorBits (xorBits a b) b = a := by
  apply List.ext_getElem
  · simp [xorBits]
  · intro i h1 h2
    rw [getElem_xorBits]
    rw [List.getD_eq_getElem _ 0 (by simpa [length_xorBits] using h2)]
    rw [getElem_xorBits _ _ _ (by simpa [length_xorBits] using h2)]
    rw [and_one_xor_cancel _ _ (getD_lt ha (by omega) i)]
    exact List.getD_eq_getElem a 0 h2

theorem length_xorBlocks (a b : Bytes) : (xorBlocks a b).length = 8 := by
  simp [xorBlocks]

theorem getElem_xorBlocks (a b : Bytes) (i : Nat) (h : i < (xorBlocks a b).length) :
    (xorBlocks a b)[i] = a.getD i 0 ^^^ b.getD i 0 := by
  simp [xorBlocks]

theorem xorBlocks_cancel {a : Bytes} (b : Bytes) (ha : a.length = 8) :
    xorBlocks (xorBlocks a b) b = a := by
  apply List.ext_getElem
  · simp [length_xorBlocks, ha]
  · intro i h1 h2
    rw [getElem_xorBlocks]
    rw [List.getD_eq_getElem _ 0 (by simpa [length_xorBlocks] using h1)]
    rw [getElem_xorBlocks _ _ _ (by simpa [length_xorBlocks] using h1)]
    rw [Nat.xor_cancel_right]
    exact List.getD_eq_getElem a 0 h2

theorem lt256_xorBlocks {a b : Bytes} (ha : ∀ x ∈ a, x < 256) (hb : ∀ x ∈ b, x < 256) :
    ∀ x ∈ xorBlocks a b, x < 256 := by
  intro x hx
  simp only [xorBlocks, List.mem_map, List.mem_range] at hx
  obtain ⟨i, _, rfl⟩ := hx
  have h256 : (256 : Nat) = 2 ^ 8 := by norm_num
  rw [h256]
  exact Nat.xor_lt_two_pow (by rw [← h256]; exact getD_lt ha (by omega) i)
    (by rw [← h256]; exact getD_lt hb (by omega) i)

/-! ## chunkBits lemmas -/

theorem length_chunkBits (bits : Bits) (size : Nat) :
    (chunkBits bits size).length = (bits.length + size - 1) / size := by
  simp [chunkBits]

theorem chunkBits_nil (size : Nat) : chunkBits [] size = [] := by
  rcases Nat.eq_zero_or_pos size with h | h
  · subst h; rfl
  · simp [chunkBits, Nat.div_eq_of_lt (by omega : size - 1 < size)]

theorem chunkBits_cons {bits : Bits} {size : Nat} (hs : 0 < size) (hb : bits ≠ []) :
    chunkBits bits size = bits.take size :: chunkBits (bits.drop size) size := by
  have hn : 0 < bits.length := List.length_pos.mpr hb
  have hcount : (bits.length + size - 1) / size
      = ((bits.drop size).length + size - 1) / size + 1 := by
    rw [List.length_drop]
    rcases Nat.lt_or_ge bits.length (size + 1) with hlt | hge
    · have h1 : bits.length - size = 0 := by omega
      rw [h1]
      have h2 : (0 + size - 1) / size = 0 := Nat.div_eq_of_lt (by omega)
      rw [h2]
      exact Nat.div_eq_of_lt_le (by omega) (by omega)
    · have h1 : bits.length - size + size - 1 = bits.length - 1 := by omega
      have h2 : bits.length + size - 1 = (bits.length - 1) + size := by omega
      rw [h1, h2, Nat.add_div_right _ hs]
  unfold chunkBits
  rw [hcount, List.range_succ_eq_map, List.map_cons, List.map_map]
  congr 1
  · simp
  · apply List.map_congr_left
    intro i _
    simp only [Function.comp]
    rw [List.drop_drop]
    have hmul : Nat.succ i * size = size + i * size := by
      rw [Nat.succ_mul, Nat.add_comm]
    rw [hmul]

theorem flatten_chunkBits_aux (size : Nat) (hs : 0 < size) :
    ∀ (n : Nat) (bits : Bits), bits.length ≤ n → (chunkBits bits size).flatten = bits := by
  intro n
  induction n with
  | zero =>
    intro bits hb
    have : bits = [] := by cases bits <;> simp_all
    subst this
    simp [chunkBits_nil]
  | succ k ih =>
    intro bits hb
    by_cases hbe : bits = []
    · subst hbe; simp [chunkBits_nil]
    · rw [chunkBits_cons hs hbe, List.flatten_cons,
        ih (bits.drop size) (by
          have := List.length_pos.mpr hbe
          simp only [List.length_drop]
          omega),
        List.take_append_drop]

theorem flatten_chunkBits {size : Nat} (hs : 0 < size) (bits : Bits) :
    (chunkBits bits size).flatten = bits :=
  flatten_chunkBits_aux size hs bits.length bits le_rfl

theorem mem_chunkBits_length_aux (size : Nat) (hs : 0 < size) :
    ∀ (n : Nat) (bits : Bits), bits.length ≤ n → size ∣ bits.length →
      ∀ c ∈ chunkBits bits size, c.length = size := by
  intro n
  induction n with
  | zero =>
    intro bits hb _
    have : bits = [] := by cases bits <;> simp_all
    subst this
    simp [chunkBits_nil]
  | succ k ih =>
    intro bits hb hdvd c hc
    by_cases hbe : bits = []
    · subst hbe; simp [chunkBits_nil] at hc
    · rw [chunkBits_cons hs hbe] at hc
      have hlen : size ≤ bits.length :=
        Nat.le_of_dvd (List.length_pos.mpr hbe) hdvd
      rcases List.mem_cons.mp hc with rfl | hc2
      · simp only [List.length_take]
        omega
      · refine ih (bits.drop size) ?_ ?_ c hc2
        · have := List.length_pos.mpr hbe
          simp only [List.length_drop]
          omega
        · simp only [List.length_drop]
          exact Nat.dvd_sub' hdvd dvd_rfl

theorem mem_chunkBits_length {bits : Bits} {size : Nat} (hs : 0 < size)
    (hdvd : size ∣ bits.length) {c : Bits} (hc : c ∈ chunkBits bits size) :
    c.length = size :=
  mem_chunkBits_length_aux size hs bits.length bits le_rfl hdvd c hc

theorem mem_of_mem_chunkBits {bits : Bits} {size : Nat} {c : Bits}
    (hc : c ∈ chunkBits bits size) : ∀ x ∈ c, x ∈ bits := by
  simp only [chunkBits, List.mem_map, List.mem_range] at hc
  obtain ⟨k, _, rfl⟩ := hc
  intro x hx
  exact List.mem_of_mem_drop (List.mem_of_mem_take hx)

theorem chunkBits_flatten {size : Nat} (hs : 0 < size) :
    ∀ (ls : List Bits), (∀ l ∈ ls, l.length = size) → chunkBits ls.flatten size = ls := by
  intro ls
  induction ls with
  | nil => intro _; simp [chunkBits_nil]
  | cons l rest ih =>
    intro h
    have hl : l.length = size := h l (by simp)
    have hne : (List.flatten (l :: rest)) ≠ [] := by
      simp only [List.flatten_cons]
      intro hE
      rcases List.append_eq_nil.mp hE with ⟨h1, _⟩
      rw [h1] at hl
      simp at hl
      omega
    rw [chunkBits_cons hs hne, List.flatten_cons]
    have ht : (l ++ rest.flatten).take size = l := by
      rw [← hl]; exact List.take_left l rest.flatten
    have hd : (l ++ rest.flatten).drop size = rest.flatten := by
      rw [← hl]; exact List.drop_left l rest.flatten
    rw [ht, hd, ih (fun x hx => h x (by simp [hx]))]

/-! ## permute lemmas -/

theorem length_permute (bits : Bits) (table : List Nat) :
    (permute bits table).length = table.length := by
  simp [permute]

theorem allBits_permute {bits : Bits} (h : ∀ x ∈ bits, x < 2) (table : List Nat) :
    ∀ x ∈ permute bits table, x < 2 := by
  intro x hx
  simp only [permute, List.mem_map] at hx
  obtain ⟨i, _, rfl⟩ := hx
  exact getD_lt h (by omega) _

theorem permute_permute (bits : Bits) (t1 t2 : List Nat)
    (h : ∀ j ∈ t2, j - 1 < t1.length) :
    permute (permute bits t1) t2 = permute bits (t2.map (fun j => t1.getD (j - 1) 0)) := by
  simp only [permute, List.map_map]
  apply List.map_congr_left
  intro j hj
  simp only [Function.comp]
  rw [List.getD_eq_getElem (t1.map _) 0 (by simpa using h j hj), List.getElem_map]
  rw [List.getD_eq_getElem t1 0 (h j hj)]

theorem permute_range_id (bits : Bits) (n : Nat) (h : bits.length = n) :
    permute bits ((List.range n).map (fun i => i + 1)) = bits := by
  apply List.ext_getElem
  · simp [permute, h]
  · intro i h1 h2
    simp only [permute, List.map_map, List.getElem_map, List.getElem_range,
      Function.comp, Nat.add_sub_cancel]
    exact List.getD_eq_getElem bits 0 h2

theorem comp_FP_IP :
    FP_TABLE.map (fun j => IP_TABLE.getD (j - 1) 0) = (List.range 64).map (fun i => i + 1) := by
  decide

theorem comp_IP_FP :
    IP_TABLE.map (fun j => FP_TABLE.getD (j - 1) 0) = (List.range 64).map (fun i => i + 1) := by
  decide

theorem fp_of_ip (bits : Bits) (h : bits.length = 64) :
    permute (permute bits IP_TABLE) FP_TABLE = bits := by
  rw [permute_permute _ _ _ (by decide), comp_FP_IP, permute_range_id _ _ h]

theorem ip_of_fp (bits : Bits) (h : bits.length = 64) :
    permute (permute bits FP_TABLE) IP_TABLE = bits := by
  rw [permute_permute _ _ _ (by decide), comp_IP_FP, permute_range_id _ _ h]

/-! ## Hex/bits conversion lemmas -/

theorem length_bitsToHex (bits : Bits) : (bitsToHex bits).length = (bits.length + 3) / 4 := by
  simp [bitsToHex, length_chunkBits]

theorem toHexDigit_mem (bits : Bits) : toHexDigit bits ∈ hexLookup := by
  unfold toHexDigit
  by_cases h : (bits.foldl (fun acc bit => (acc <<< 1) ||| bit) 0) < hexLookup.length
  · rw [List.getD_eq_getElem _ _ h]
    exact List.getElem_mem h
  · rw [List.getD_eq_default _ _ (Nat.le_of_not_lt h)]
    decide

theorem mem_bitsToHex {bits : Bits} : ∀ c ∈ bitsToHex bits, c ∈ hexLookup := by
  intro c hc
  simp only [bitsToHex, List.mem_map] at hc
  obtain ⟨ch, _, rfl⟩ := hc
  exact toHexDigit_mem ch

theorem length_padStartList (l : List Char) (n : Nat) (c : Char) :
    (padStartList l n c).length = max n l.length := by
  simp [padStartList]
  omega

theorem length_flatten_hexCharBits :
    ∀ l : List Char, ((l.map hexCharBits).flatten).length = 4 * l.length := by
  intro l
  induction l with
  | nil => simp
  | cons c rest ih =>
    simp only [List.map_cons, List.flatten_cons, List.length_append, ih,
      List.length_cons]
    simp [hexCharBits]
    ring

theorem allBits_hexCharBits (c : Char) : ∀ x ∈ hexCharBits c, x < 2 := by
  intro x hx
  simp only [hexCharBits, List.mem_cons, List.not_mem_nil, or_false] at hx
  rcases hx with rfl | rfl | rfl | rfl <;> exact and_one_lt_two _

theorem length_hexToBits (hex : List Char) (size : Nat) (h4 : size % 4 = 0) :
    (hexToBits hex size).length = size := by
  unfold hexToBits
  simp only [List.length_drop, length_flatten_hexCharBits, length_padStartList,
    List.length_map]
  omega

theorem allBits_hexToBits (hex : List Char) (size : Nat) :
    ∀ x ∈ hexToBits hex size, x < 2 := by
  intro x hx
  unfold hexToBits at hx
  have hm := List.mem_of_mem_drop hx
  rw [List.mem_flatten] at hm
  obtain ⟨s, hs, hxs⟩ := hm
  rw [List.mem_map] at hs
  obtain ⟨c, _, rfl⟩ := hs
  exact allBits_hexCharBits c x hxs

theorem hexToBits_eq_flatten (hex : List Char) (size : Nat) (h : hex.length * 4 = size) :
    hexToBits hex size = ((hex.map Char.toLower).map hexCharBits).flatten := by
  unfold hexToBits padStartList
  have h1 : size / 4 - (hex.map Char.toLower).length = 0 := by
    simp only [List.length_map]
    omega
  rw [h1]
  simp only [List.replicate_zero, List.nil_append, length_flatten_hexCharBits,
    List.length_map]
  have h2 : 4 * hex.length - size = 0 := by omega
  rw [h2, List.drop_zero]

theorem toLower_hexLookup : ∀ c ∈ hexLookup, c.toLower = c := by decide

theorem toHexDigit_hexCharBits : ∀ c ∈ hexLookup, toHexDigit (hexCharBits c) = c := by
  decide

theorem hexCharToNat_lt_16 (c : Char) : hexCharToNat c < 16 := by
  unfold hexCharToNat
  split <;> omega

theorem hexCharBits_toHexDigit (a b c d : Nat) (ha : a < 2) (hb : b < 2)
    (hc : c < 2) (hd : d < 2) :
    hexCharBits ((toHexDigit [a, b, c, d]).toLower) = [a, b, c, d] := by
  interval_cases a <;> interval_cases b <;> interval_cases c <;> interval_cases d <;> rfl

theorem hexToBits_bitsToHex {bits : Bits} (hb : ∀ x ∈ bits, x < 2)
    (h4 : bits.length % 4 = 0) :
    hexToBits (bitsToHex bits) bits.length = bits := by
  have hlen : (bitsToHex bits).length * 4 = bits.length := by
    rw [length_bitsToHex]
    omega
  rw [hexToBits_eq_flatten _ _ hlen, bitsToHex, List.map_map, List.map_map]
  simp only [Function.comp_def]
  have hid : (chunkBits bits 4).map (fun ch => hexCharBits (Char.toLower (toHexDigit ch)))
      = (chunkBits bits 4).map (fun ch => ch) := by
    apply List.map_congr_left
    intro ch hch
    have hchl : ch.length = 4 :=
      mem_chunkBits_length (by omega) (Nat.dvd_of_mod_eq_zero h4) hch
    have hchb : ∀ x ∈ ch, x < 2 := fun x hx => hb x (mem_of_mem_chunkBits hch x hx)
    match ch, hchl with
    | [a, b, c, d], _ =>
      exact hexCharBits_toHexDigit a b c d (hchb a (by simp)) (hchb b (by simp))
        (hchb c (by simp)) (hchb d (by simp))
  rw [hid, List.map_id', flatten_chunkBits (by omega)]

theorem bitsToHex_hexToBits {hex : List Char} (hv : ∀ c ∈ hex, c.toLower ∈ hexLookup) :
    bitsToHex (hexToBits hex (hex.length * 4)) = hex.map Char.toLower := by
  rw [hexToBits_eq_flatten _ _ rfl, bitsToHex, List.map_map]
  rw [chunkBits_flatten (by omega) (hex.map (hexCharBits ∘ Char.toLower)) (by
    intro l hl
    rw [List.mem_map] at hl
    obtain ⟨c, _, rfl⟩ := hl
    simp [Function.comp, hexCharBits])]
  rw [List.map_map]
  apply List.map_congr_left
  intro c hc
  simp only [Function.comp]
  exact toHexDigit_hexCharBits _ (hv c hc)

/-! ## Padding lemmas -/

theorem getD_append_replicate (b : Bytes) (p v i : Nat) (hi : i < p) :
    (b ++ List.replicate p v).getD (b.length + i) 0 = v := by
  rw [List.getD_eq_getElem _ 0 (by simp; omega)]
  rw [List.getElem_append_right (by omega)]
  simp

theorem padTo8Bytes_eq (b : Bytes) :
    padTo8Bytes b = b ++ List.replicate (8 - b.length % 8) (8 - b.length % 8) := by
  have hm : b.length % 8 < 8 := Nat.mod_lt _ (by omega)
  simp only [padTo8Bytes]
  rw [if_neg (by omega)]

theorem length_padTo8Bytes_mod (b : Bytes) : (padTo8Bytes b).length % 8 = 0 := by
  rw [padTo8Bytes_eq]
  have hm : b.length % 8 < 8 := Nat.mod_lt _ (by omega)
  simp only [List.length_append, List.length_replicate]
  omega

theorem padTo8Bytes_ne_nil (b : Bytes) : padTo8Bytes b ≠ [] := by
  rw [padTo8Bytes_eq]
  have hm : b.length % 8 < 8 := Nat.mod_lt _ (by omega)
  intro h
  have := congrArg List.length h
  simp at this
  omega

theorem unpadPkcs_strip {b : Bytes}
    (h1 : 1 ≤ b.getD (b.length - 1) 0) (h2 : b.getD (b.length - 1) 0 ≤ 8)
    (h3 : b.getD (b.length - 1) 0 ≤ b.length)
    (h4 : ∀ i < b.getD (b.length - 1) 0, b.getD (b.length - 1 - i) 0 = b.getD (b.length - 1) 0) :
    unpadPkcs b = b.take (b.length - b.getD (b.length - 1) 0) := by
  have hlen : b.length ≠ 0 := by omega
  have hg : ¬(b.getD (b.length - 1) 0 < 1 ∨ b.getD (b.length - 1) 0 > 8 ∨
      b.getD (b.length - 1) 0 > b.length) := by omega
  have hall : ∀ i ∈ List.range (b.getD (b.length - 1) 0),
      b.getD (b.length - 1 - i) 0 = b.getD (b.length - 1) 0 :=
    fun i hi => h4 i (List.mem_range.mp hi)
  simp only [unpadPkcs]
  rw [if_neg hlen, if_neg hg, if_pos hall]

theorem unpadPkcs_id {b : Bytes}
    (h : ¬(1 ≤ b.getD (b.length - 1) 0 ∧ b.getD (b.length - 1) 0 ≤ 8 ∧
        b.getD (b.length - 1) 0 ≤ b.length ∧
        (∀ i < b.getD (b.length - 1) 0, b.getD (b.length - 1 - i) 0 = b.getD (b.length - 1) 0))) :
    unpadPkcs b = b := by
  by_cases hlen : b.length = 0
  · simp only [unpadPkcs]
    rw [if_pos hlen]
  · simp only [unpadPkcs]
    rw [if_neg hlen]
    by_cases hguard : b.getD (b.length - 1) 0 < 1 ∨ b.getD (b.length - 1) 0 > 8 ∨
        b.getD (b.length - 1) 0 > b.length
    · rw [if_pos hguard]
    · have hno : ¬(∀ i ∈ List.range (b.getD (b.length - 1) 0),
          b.getD (b.length - 1 - i) 0 = b.getD (b.length - 1) 0) := by
        intro hall
        push_neg at hguard
        exact h ⟨by omega, by omega, by omega, fun i hi => hall i (List.mem_range.mpr hi)⟩
      rw [if_neg hguard, if_neg hno]

theorem unpadPkcs_padTo8Bytes (b : Bytes) : unpadPkcs (padTo8Bytes b) = b := by
  have hm : b.length % 8 < 8 := Nat.mod_lt _ (by omega)
  obtain ⟨p, hpdef⟩ : ∃ p, 8 - b.length % 8 = p := ⟨_, rfl⟩
  have hp1 : 1 ≤ p := by omega
  have hp8 : p ≤ 8 := by omega
  rw [padTo8Bytes_eq, hpdef]
  have hlen : (b ++ List.replicate p p).length = b.length + p := by simp
  have hlast : (b ++ List.replicate p p).getD ((b ++ List.replicate p p).length - 1) 0 = p := by
    rw [hlen]
    have he : b.length + p - 1 = b.length + (p - 1) := by omega
    rw [he]
    exact getD_append_replicate b p p (p - 1) (by omega)
  rw [unpadPkcs_strip (by rw [hlast]; omega) (by rw [hlast]; omega)
      (by rw [hlast, hlen]; omega)
      (by
        intro i hi
        rw [hlast] at hi
        rw [hlast, hlen]
        have he : b.length + p - 1 - i = b.length + (p - 1 - i) := by omega
        rw [he]
        exact getD_append_replicate b p p (p - 1 - i) (by omega))]
  rw [hlast, hlen]
  have he : b.length + p - p = b.length := by omega
  rw [he]
  exact List.take_left b _


/-! ## Claim C5 -/

/-- C5: `padTo8Bytes` appends `8 - (len mod 8)` bytes (exactly 8 when the
length is already a multiple of 8, since `8 - 0 = 8`), each appended byte
equal to the number of bytes appended; `unpadPkcs` strips the last byte's
value `N` of trailing bytes exactly when `1 ≤ N ≤ 8`, `N` does not exceed the
length and all `N` trailing bytes equal `N`, and otherwise returns the input
unchanged (it is a total function and never raises); consequently
`unpadPkcs (padTo8Bytes b) = b` for every byte list `b`. -/
theorem C5_padding_roundtrip (b : Bytes) :
    (padTo8Bytes b = b ++ List.replicate (8 - b.length % 8) (8 - b.length % 8)) ∧
    (b.length % 8 = 0 → padTo8Bytes b = b ++ List.replicate 8 8) ∧
    ((1 ≤ b.getD (b.length - 1) 0 ∧ b.getD (b.length - 1) 0 ≤ 8 ∧
        b.getD (b.length - 1) 0 ≤ b.length ∧
        (∀ i < b.getD (b.length - 1) 0,
          b.getD (b.length - 1 - i) 0 = b.getD (b.length - 1) 0)) →
      unpadPkcs b = b.take (b.length - b.getD (b.length - 1) 0)) ∧
    (¬(1 ≤ b.getD (b.length - 1) 0 ∧ b.getD (b.length - 1) 0 ≤ 8 ∧
        b.getD (b.length - 1) 0 ≤ b.length ∧
        (∀ i < b.getD (b.length - 1) 0,
          b.getD (b.length - 1 - i) 0 = b.getD (b.length - 1) 0)) →
      unpadPkcs b = b) ∧
    unpadPkcs (padTo8Bytes b) = b := by
  refine ⟨padTo8Bytes_eq b, ?_, ?_, unpadPkcs_id, unpadPkcs_padTo8Bytes b⟩
  · intro h0
    rw [padTo8Bytes_eq, h0]
  · intro ⟨h1, h2, h3, h4⟩
    exact unpadPkcs_strip h1 h2 h3 h4

/-- Witness for C5 at the concrete payload `[1, 2, 3]`. -/
theorem C5_padding_roundtrip_witness :
    padTo8Bytes [1, 2, 3] = [1, 2, 3] ++ List.replicate (8 - [1, 2, 3].length % 8)
      (8 - [1, 2, 3].length % 8) ∧
    unpadPkcs (padTo8Bytes [1, 2, 3]) = [1, 2, 3] :=
  ⟨(C5_padding_roundtrip [1, 2, 3]).1, (C5_padding_roundtrip [1, 2, 3]).2.2.2.2⟩

/-! ## Claim C9 -/

/-- C9: hex↔bits conversion is lossless both ways for the block sizes in use:
decoding the hex encoding of any 0/1 bit sequence of length 64, 56, 48 or 32
returns the bits, and encoding the bit decoding of any hex string of length
16, 14, 12 or 8 (hex digits, either case) returns the string lowercased. -/
theorem C9_hex_bits_roundtrip :
    (∀ bits : Bits, (∀ x ∈ bits, x < 2) →
      (bits.length = 64 ∨ bits.length = 56 ∨ bits.length = 48 ∨ bits.length = 32) →
      hexToBits (bitsToHex bits) bits.length = bits) ∧
    (∀ hex : List Char, (∀ c ∈ hex, c.toLower ∈ hexLookup) →
      (hex.length = 16 ∨ hex.length = 14 ∨ hex.length = 12 ∨ hex.length = 8) →
      bitsToHex (hexToBits hex (hex.length * 4)) = hex.map Char.toLower) := by
  constructor
  · intro bits hb hlen
    exact hexToBits_bitsToHex hb (by rcases hlen with h | h | h | h <;> omega)
  · intro hex hv _
    exact bitsToHex_hexToBits hv

/-- Witness for C9: a 64-bit all-ones sequence and a mixed-case 16-digit hex
string. -/
theorem C9_hex_bits_roundtrip_witness :
    hexToBits (bitsToHex (List.replicate 64 1)) (List.replicate 64 1).length
      = List.replicate 64 1 ∧
    bitsToHex (hexToBits "0123456789ABCDEF".toList ("0123456789ABCDEF".toList.length * 4))
      = "0123456789ABCDEF".toList.map Char.toLower :=
  ⟨C9_hex_bits_roundtrip.1 _ (by decide) (by decide),
   C9_hex_bits_roundtrip.2 _ (by decide) (by decide)⟩

/-! ## Claim C10 -/

/-- C10: for every mode (ECB, CBC, CFB, OFB, CTR), key and IV,
`encryptBytesWithMode` on an empty plaintext throws "No blocks were
encrypted" (`ModeError.noBlocks`) instead of returning an empty or IV-only
ciphertext. -/
theorem C10_empty_plaintext_throws (keyHex : List Char) (mode : DesMode) (iv : Bytes) :
    encryptBytesWithMode [] keyHex mode iv = Except.error ModeError.noBlocks := by
  cases mode <;> rfl


/-! ## Claim C6 -/

/-- C6: the text-decrypt pipeline fails with a typed error exactly when
(a) the byte length is not a multiple of 8 (`ModeError.lengthError` — for a
non-ECB ciphertext of length ≥ 8 this is equivalent to the length excluding
the 8-byte IV not being a multiple of 8, per the last conjunct), or (b) a
non-ECB decrypt receives fewer than 16 bytes, too short for an 8-byte IV plus
one block (`ModeError.missingIv`); in every other case it produces an output,
and the encrypt-side `noBlocks` error never occurs on this path. -/
theorem C6_decrypt_error_conditions (src : Bytes) (keyHex : List Char) (mode : DesMode) :
    ((runTextDecrypt src keyHex mode = Except.error ModeError.lengthError) ↔
      src.length % 8 ≠ 0) ∧
    ((runTextDecrypt src keyHex mode = Except.error ModeError.missingIv) ↔
      (src.length % 8 = 0 ∧ mode ≠ DesMode.ECB ∧ src.length < 16)) ∧
    ((∃ out, runTextDecrypt src keyHex mode = Except.ok out) ↔
      (src.length % 8 = 0 ∧ (mode = DesMode.ECB ∨ 16 ≤ src.length))) ∧
    (runTextDecrypt src keyHex mode ≠ Except.error ModeError.noBlocks) ∧
    (8 ≤ src.length → (src.length - 8) % 8 = src.length % 8) := by
  by_cases h8 : src.length % 8 = 0
  · by_cases h16 : src.length < 16
    · cases mode <;>
        simp [runTextDecrypt, decryptBytesWithMode, Except.map, h8, h16] <;> omega
    · cases mode <;>
        simp [runTextDecrypt, decryptBytesWithMode, Except.map, h8, h16] <;> omega
  · cases mode <;>
      simp [runTextDecrypt, decryptBytesWithMode, Except.map, h8] <;> omega

/-- Witness for C6: a 3-byte ciphertext is rejected with the length error, an
8-byte non-ECB ciphertext with the missing-IV error. -/
theorem C6_decrypt_error_conditions_witness :
    runTextDecrypt [1, 2, 3] "0011223344556677".toList DesMode.CBC
      = Except.error ModeError.lengthError ∧
    runTextDecrypt [1, 2, 3, 4, 5, 6, 7, 8] "0011223344556677".toList DesMode.CBC
      = Except.error ModeError.missingIv :=
  ⟨(C6_decrypt_error_conditions [1, 2, 3] "0011223344556677".toList DesMode.CBC).1.mpr
      (by decide),
   (C6_decrypt_error_conditions [1, 2, 3, 4, 5, 6, 7, 8] "0011223344556677".toList
      DesMode.CBC).2.1.mpr (by decide)⟩


/-! ## Key-schedule lemmas and claim C8 -/

theorem subkeyRounds_rounds_length :
    ∀ (schedule : List Nat) (index : Nat) (c d : Bits),
      (subkeyRounds schedule index c d).1.length = schedule.length := by
  intro schedule
  induction schedule with
  | nil => intro index c d; rfl
  | cons shift rest ih =>
    intro index c d
    simp only [subkeyRounds, List.length_cons]
    rw [ih]

theorem subkeyRounds_subKeys_length :
    ∀ (schedule : List Nat) (index : Nat) (c d : Bits),
      (subkeyRounds schedule index c d).2.length = schedule.length := by
  intro schedule
  induction schedule with
  | nil => intro index c d; rfl
  | cons shift rest ih =>
    intro index c d
    simp only [subkeyRounds, List.length_cons]
    rw [ih]

theorem subkeyRounds_round_indices :
    ∀ (schedule : List Nat) (index : Nat) (c d : Bits),
      (subkeyRounds schedule index c d).1.map KeyScheduleRound.round
        = (List.range schedule.length).map (fun i => index + 1 + i) := by
  intro schedule
  induction schedule with
  | nil => intro index c d; rfl
  | cons shift rest ih =>
    intro index c d
    simp only [subkeyRounds, List.map_cons, List.length_cons,
      List.range_succ_eq_map, List.map_map]
    rw [ih]
    congr 1
    apply List.map_congr_left
    intro i _
    simp only [Function.comp_def]
    omega

theorem subkeyRounds_shifts :
    ∀ (schedule : List Nat) (index : Nat) (c d : Bits),
      (subkeyRounds schedule index c d).1.map KeyScheduleRound.shifts = schedule := by
  intro schedule
  induction schedule with
  | nil => intro index c d; rfl
  | cons shift rest ih =>
    intro index c d
    simp only [subkeyRounds, List.map_cons]
    rw [ih]

theorem subkeyRounds_subKeys_eq :
    ∀ (schedule : List Nat) (index : Nat) (c d : Bits),
      (subkeyRounds schedule index c d).1.map KeyScheduleRound.subKey
        = (subkeyRounds schedule index c d).2 := by
  intro schedule
  induction schedule with
  | nil => intro index c d; rfl
  | cons shift rest ih =>
    intro index c d
    simp only [subkeyRounds, List.map_cons]
    rw [ih]

theorem subkeyRounds_subKey_length :
    ∀ (schedule : List Nat) (index : Nat) (c d : Bits),
      ∀ r ∈ (subkeyRounds schedule index c d).1, r.subKey.length = 12 := by
  intro schedule
  induction schedule with
  | nil => intro index c d r hr; simp [subkeyRounds] at hr
  | cons shift rest ih =>
    intro index c d r hr
    simp only [subkeyRounds, List.mem_cons] at hr
    rcases hr with rfl | hr
    · simp only [length_bitsToHex, length_permute]
      rfl
    · exact ih (index + 1) _ _ r hr


/-- C8: for every key string, `generate_subkeys` yields exactly 16 round
records in generation order (`round` fields 1 through 16, shift amounts
exactly the fixed schedule, no reversal), each stored subkey being 12 hex
digits (48 bits) and the parity-dropped key 14 hex digits (56 bits); the
`subKeys` list is exactly the per-round `subKey` fields in the same order. -/
theorem C8_key_schedule_shape (keyHex : List Char) :
    (generate_subkeys keyHex).rounds.length = 16 ∧
    (generate_subkeys keyHex).subKeys.length = 16 ∧
    (generate_subkeys keyHex).rounds.map KeyScheduleRound.round
      = (List.range 16).map (fun i => i + 1) ∧
    (generate_subkeys keyHex).rounds.map KeyScheduleRound.shifts = SHIFT_SCHEDULE ∧
    (∀ r ∈ (generate_subkeys keyHex).rounds, r.subKey.length = 12) ∧
    (∀ s ∈ (generate_subkeys keyHex).subKeys, s.length = 12) ∧
    (generate_subkeys keyHex).parityDroppedKey.length = 14 ∧
    (generate_subkeys keyHex).rounds.map KeyScheduleRound.subKey
      = (generate_subkeys keyHex).subKeys := by
  simp only [generate_subkeys]
  refine ⟨?_, ?_, ?_, ?_, ?_, ?_, ?_, ?_⟩
  · rw [subkeyRounds_rounds_length]; rfl
  · rw [subkeyRounds_subKeys_length]; rfl
  · rw [subkeyRounds_round_indices]
    have h16 : SHIFT_SCHEDULE.length = 16 := rfl
    rw [h16]
    apply List.map_congr_left
    intro i _
    omega
  · exact subkeyRounds_shifts _ _ _ _
  · exact subkeyRounds_subKey_length _ _ _ _
  · intro s hs
    rw [← subkeyRounds_subKeys_eq] at hs
    obtain ⟨r, hr, rfl⟩ := List.mem_map.mp hs
    exact subkeyRounds_subKey_length _ _ _ _ r hr
  · simp only [length_bitsToHex, length_permute]
    rfl
  · exact subkeyRounds_subKeys_eq _ _ _ _

/-- Witness for C8 at the key of the published test vector. -/
theorem C8_key_schedule_shape_witness :
    (generate_subkeys "133457799bbcdff1".toList).rounds.length = 16 ∧
    ((generate_subkeys "133457799bbcdff1".toList).rounds.get
        ⟨0, by rw [(C8_key_schedule_shape "133457799bbcdff1".toList).1]; omega⟩).subKey.length
      = 12 :=
  ⟨(C8_key_schedule_shape "133457799bbcdff1".toList).1,
   (C8_key_schedule_shape "133457799bbcdff1".toList).2.2.2.2.1 _ (List.get_mem _ _ _)⟩


/-! ## Feistel structure lemmas (toward claim C2) -/

theorem allBits_s_box (bits : Bits) : ∀ x ∈ s_box_substitution bits, x < 2 := by
  intro x hx
  simp only [s_box_substitution, List.mem_flatten, List.mem_map] at hx
  obtain ⟨s, ⟨p, _, rfl⟩, hxs⟩ := hx
  simp only [sBoxChunk, List.mem_cons, List.not_mem_nil, or_false] at hxs
  rcases hxs with rfl | rfl | rfl | rfl <;> exact and_one_lt_two _

theorem allBits_f_pBox (right subKey : Bits) :
    ∀ x ∈ (f_function right subKey).pBoxResult, x < 2 := by
  simp only [f_function, p_box_permutation]
  exact allBits_permute (allBits_s_box _) P_TABLE

theorem stepHex_eq (k : List Char) (l r : Bits) :
    stepHex k (l, r) = (r, xorBits l (f_function r (hexToBits k 48)).pBoxResult) := rfl

theorem roundsLoop_state :
    ∀ (seq : List (List Char)) (index : Nat) (l r : Bits),
      (roundsLoop seq index l r).2 = seq.foldl (fun s k => stepHex k s) (l, r) := by
  intro seq
  induction seq with
  | nil => intro index l r; rfl
  | cons k rest ih =>
    intro index l r
    simp only [roundsLoop, List.foldl_cons]
    rw [ih]
    rfl

theorem foldl_stepHex_wf :
    ∀ (seq : List (List Char)) (l r : Bits),
      (∀ x ∈ l, x < 2) → (∀ x ∈ r, x < 2) → l.length = 32 → r.length = 32 →
      (∀ x ∈ (seq.foldl (fun s k => stepHex k s) (l, r)).1, x < 2) ∧
      (∀ x ∈ (seq.foldl (fun s k => stepHex k s) (l, r)).2, x < 2) ∧
      (seq.foldl (fun s k => stepHex k s) (l, r)).1.length = 32 ∧
      (seq.foldl (fun s k => stepHex k s) (l, r)).2.length = 32 := by
  intro seq
  induction seq with
  | nil => intro l r h1 h2 h3 h4; exact ⟨h1, h2, h3, h4⟩
  | cons k rest ih =>
    intro l r h1 h2 h3 h4
    simp only [List.foldl_cons, stepHex_eq]
    exact ih _ _ h2 (allBits_xorBits _ _) h4 (by rw [length_xorBits, h3])

theorem stepHex_swap_cancel (k : List Char) (s : Bits × Bits) (hl : ∀ x ∈ s.1, x < 2) :
    stepHex k ((stepHex k s).2, (stepHex k s).1) = (s.2, s.1) := by
  obtain ⟨l, r⟩ := s
  simp only [stepHex_eq]
  rw [Prod.mk.injEq]
  exact ⟨rfl, xorBits_cancel _ hl⟩

theorem foldl_stepHex_reverse (seq : List (List Char)) (l r : Bits)
    (hl : ∀ x ∈ l, x < 2) (hr : ∀ x ∈ r, x < 2)
    (hll : l.length = 32) (hrl : r.length = 32) :
    seq.reverse.foldl (fun s k => stepHex k s)
      ((seq.foldl (fun s k => stepHex k s) (l, r)).2,
       (seq.foldl (fun s k => stepHex k s) (l, r)).1) = (r, l) := by
  induction seq using List.reverseRecOn with
  | nil => rfl
  | append_singleton ks k ih =>
    have hE := foldl_stepHex_wf ks l r hl hr hll hrl
    rw [List.foldl_append, List.reverse_append]
    simp only [List.reverse_cons, List.reverse_nil, List.nil_append,
      List.singleton_append, List.foldl_cons, List.foldl_nil]
    rw [stepHex_swap_cancel k _ hE.1]
    exact ih


theorem roundsLoop_rounds_length :
    ∀ (seq : List (List Char)) (index : Nat) (l r : Bits),
      (roundsLoop seq index l r).1.length = seq.length := by
  intro seq
  induction seq with
  | nil => intro index l r; rfl
  | cons k rest ih =>
    intro index l r
    simp only [roundsLoop, List.length_cons]
    rw [ih]

theorem runCore_outputHex_encrypt (input keyHex : List Char) :
    (runCore input keyHex CipherMode.encrypt).outputHex =
      bitsToHex (permute
        (((generate_subkeys keyHex).subKeys.foldl (fun s k => stepHex k s)
            ((permute (hexToBits input 64) IP_TABLE).take 32,
             (permute (hexToBits input 64) IP_TABLE).drop 32)).2 ++
         ((generate_subkeys keyHex).subKeys.foldl (fun s k => stepHex k s)
            ((permute (hexToBits input 64) IP_TABLE).take 32,
             (permute (hexToBits input 64) IP_TABLE).drop 32)).1) FP_TABLE) := by
  simp only [runCore, initial_permutation, final_permutation]
  rw [roundsLoop_state]
  simp

theorem runCore_outputHex_decrypt (input keyHex : List Char) :
    (runCore input keyHex CipherMode.decrypt).outputHex =
      bitsToHex (permute
        (((generate_subkeys keyHex).subKeys.reverse.foldl (fun s k => stepHex k s)
            ((permute (hexToBits input 64) IP_TABLE).take 32,
             (permute (hexToBits input 64) IP_TABLE).drop 32)).2 ++
         ((generate_subkeys keyHex).subKeys.reverse.foldl (fun s k => stepHex k s)
            ((permute (hexToBits input 64) IP_TABLE).take 32,
             (permute (hexToBits input 64) IP_TABLE).drop 32)).1) FP_TABLE) := by
  simp only [runCore, initial_permutation, final_permutation]
  rw [roundsLoop_state]
  simp

theorem take_append_eq_left {α : Type} {l m : List α} {n : Nat} (h : l.length = n) :
    (l ++ m).take n = l := by
  subst h
  exact List.take_left l m

theorem drop_append_eq_right {α : Type} {l m : List α} {n : Nat} (h : l.length = n) :
    (l ++ m).drop n = m := by
  subst h
  exact List.drop_left l m

/-- The single-block round-trip at the hex-string level: decrypting the
encryption of a sanitized (lowercase, 16-digit) block with the same key,
however malformed the key, returns the block. -/
theorem des_roundtrip_hex (input keyHex : List Char) (hlen : input.length = 16)
    (hv : ∀ c ∈ input, c ∈ hexLookup) :
    (des_decrypt (des_encrypt input keyHex).outputHex keyHex).outputHex = input := by
  have hB64 : (hexToBits input 64).length = 64 := length_hexToBits _ _ (by omega)
  have hBb := allBits_hexToBits input 64
  have hip_len : (permute (hexToBits input 64) IP_TABLE).length = 64 := by
    rw [length_permute]; rfl
  have hipb := allBits_permute hBb IP_TABLE
  have hL0len : ((permute (hexToBits input 64) IP_TABLE).take 32).length = 32 := by
    simp [hip_len]
  have hR0len : ((permute (hexToBits input 64) IP_TABLE).drop 32).length = 32 := by
    simp [hip_len]
  have hL0b : ∀ x ∈ (permute (hexToBits input 64) IP_TABLE).take 32, x < 2 :=
    fun x hx => hipb x (List.mem_of_mem_take hx)
  have hR0b : ∀ x ∈ (permute (hexToBits input 64) IP_TABLE).drop 32, x < 2 :=
    fun x hx => hipb x (List.mem_of_mem_drop hx)
  have hF := foldl_stepHex_wf (generate_subkeys keyHex).subKeys _ _ hL0b hR0b hL0len hR0len
  simp only [des_encrypt, des_decrypt]
  rw [runCore_outputHex_encrypt, runCore_outputHex_decrypt]
  have hlen21 :
      (((generate_subkeys keyHex).subKeys.foldl (fun s k => stepHex k s)
          ((permute (hexToBits input 64) IP_TABLE).take 32,
           (permute (hexToBits input 64) IP_TABLE).drop 32)).2 ++
       ((generate_subkeys keyHex).subKeys.foldl (fun s k => stepHex k s)
          ((permute (hexToBits input 64) IP_TABLE).take 32,
           (permute (hexToBits input 64) IP_TABLE).drop 32)).1).length = 64 := by
    rw [List.length_append, hF.2.2.1, hF.2.2.2]
  have happ : ∀ x ∈
      ((generate_subkeys keyHex).subKeys.foldl (fun s k => stepHex k s)
          ((permute (hexToBits input 64) IP_TABLE).take 32,
           (permute (hexToBits input 64) IP_TABLE).drop 32)).2 ++
      ((generate_subkeys keyHex).subKeys.foldl (fun s k => stepHex k s)
          ((permute (hexToBits input 64) IP_TABLE).take 32,
           (permute (hexToBits input 64) IP_TABLE).drop 32)).1, x < 2 :=
    fun x hx => (List.mem_append.mp hx).elim (fun h => hF.2.1 x h) (fun h => hF.1 x h)
  have hpermb := allBits_permute happ FP_TABLE
  have hperm_len :
      (permute
        (((generate_subkeys keyHex).subKeys.foldl (fun s k => stepHex k s)
            ((permute (hexToBits input 64) IP_TABLE).take 32,
             (permute (hexToBits input 64) IP_TABLE).drop 32)).2 ++
         ((generate_subkeys keyHex).subKeys.foldl (fun s k => stepHex k s)
            ((permute (hexToBits input 64) IP_TABLE).take 32,
             (permute (hexToBits input 64) IP_TABLE).drop 32)).1) FP_TABLE).length = 64 := by
    rw [length_permute]; rfl
  have h1 := hexToBits_bitsToHex hpermb (by rw [hperm_len])
  rw [hperm_len] at h1
  rw [h1, ip_of_fp _ hlen21]
  rw [show (((generate_subkeys keyHex).subKeys.foldl (fun s k => stepHex k s)
        ((permute (hexToBits input 64) IP_TABLE).take 32,
         (permute (hexToBits input 64) IP_TABLE).drop 32)).2 ++
      ((generate_subkeys keyHex).subKeys.foldl (fun s k => stepHex k s)
        ((permute (hexToBits input 64) IP_TABLE).take 32,
         (permute (hexToBits input 64) IP_TABLE).drop 32)).1).take 32
      = ((generate_subkeys keyHex).subKeys.foldl (fun s k => stepHex k s)
          ((permute (hexToBits input 64) IP_TABLE).take 32,
           (permute (hexToBits input 64) IP_TABLE).drop 32)).2 from
    take_append_eq_left hF.2.2.2]
  rw [show (((generate_subkeys keyHex).subKeys.foldl (fun s k => stepHex k s)
        ((permute (hexToBits input 64) IP_TABLE).take 32,
         (permute (hexToBits input 64) IP_TABLE).drop 32)).2 ++
      ((generate_subkeys keyHex).subKeys.foldl (fun s k => stepHex k s)
        ((permute (hexToBits input 64) IP_TABLE).take 32,
         (permute (hexToBits input 64) IP_TABLE).drop 32)).1).drop 32
      = ((generate_subkeys keyHex).subKeys.foldl (fun s k => stepHex k s)
          ((permute (hexToBits input 64) IP_TABLE).take 32,
           (permute (hexToBits input 64) IP_TABLE).drop 32)).1 from
    drop_append_eq_right hF.2.2.2]
  rw [foldl_stepHex_reverse _ _ _ hL0b hR0b hL0len hR0len]
  rw [List.take_append_drop, fp_of_ip _ hB64]
  rw [show (64 : Nat) = input.length * 4 from by omega]
  rw [bitsToHex_hexToBits (fun c hc => by
    rw [toLower_hexLookup c (hv c hc)]
    exact hv c hc)]
  have hid : input.map Char.toLower = input.map (fun c => c) :=
    List.map_congr_left (fun c hc => toLower_hexLookup c (hv c hc))
  rw [hid, List.map_id']


theorem runCore_subKeys_decrypt (input keyHex : List Char) :
    (runCore input keyHex CipherMode.decrypt).subKeys
      = (generate_subkeys keyHex).subKeys.reverse := by
  simp [runCore]

theorem runCore_subKeys_encrypt (input keyHex : List Char) :
    (runCore input keyHex CipherMode.encrypt).subKeys
      = (generate_subkeys keyHex).subKeys := by
  simp [runCore]

theorem runCore_rounds_length (input keyHex : List Char) (mode : CipherMode) :
    (runCore input keyHex mode).rounds.length = 16 := by
  cases mode <;>
    simp [runCore, roundsLoop_rounds_length, subkeyRounds_subKeys_length, generate_subkeys] <;>
    rfl

/-! ## Claim C2 -/

/-- C2: for every valid 64-bit block and key (16 lowercase hex digits, the
sanitized form the cipher boundary receives), decrypting the encryption with
the same key returns the block; decryption runs the same 16-round structure
(16 round-trace records on both sides) with exactly the reversed subkey
sequence. -/
theorem C2_single_block_roundtrip (block keyHex : List Char)
    (hblen : block.length = 16) (hbv : ∀ c ∈ block, c ∈ hexLookup)
    (hklen : keyHex.length = 16) (hkv : ∀ c ∈ keyHex, c ∈ hexLookup) :
    (des_decrypt (des_encrypt block keyHex).outputHex keyHex).outputHex = block ∧
    (des_decrypt (des_encrypt block keyHex).outputHex keyHex).subKeys
      = (des_encrypt block keyHex).subKeys.reverse ∧
    (des_decrypt (des_encrypt block keyHex).outputHex keyHex).rounds.length = 16 ∧
    (des_encrypt block keyHex).rounds.length = 16 := by
  refine ⟨des_roundtrip_hex block keyHex hblen hbv, ?_, ?_, ?_⟩
  · simp only [des_decrypt, des_encrypt, runCore_subKeys_decrypt, runCore_subKeys_encrypt]
  · exact runCore_rounds_length _ _ _
  · exact runCore_rounds_length _ _ _

/-- Witness for C2 at the published test vector block and key. -/
theorem C2_single_block_roundtrip_witness :
    (des_decrypt (des_encrypt "0123456789abcdef".toList "133457799bbcdff1".toList).outputHex
        "133457799bbcdff1".toList).outputHex = "0123456789abcdef".toList ∧
    (des_decrypt (des_encrypt "0123456789abcdef".toList "133457799bbcdff1".toList).outputHex
        "133457799bbcdff1".toList).subKeys
      = (des_encrypt "0123456789abcdef".toList "133457799bbcdff1".toList).subKeys.reverse :=
  ⟨(C2_single_block_roundtrip "0123456789abcdef".toList "133457799bbcdff1".toList
      (by decide) (by decide) (by decide) (by decide)).1,
   (C2_single_block_roundtrip "0123456789abcdef".toList "133457799bbcdff1".toList
      (by decide) (by decide) (by decide) (by decide)).2.1⟩


/-! ## Input-normalization lemmas and claim C7 -/

theorem map_toLower_padStart (l : List Char) (n : Nat) :
    (padStartList l n '0').map Char.toLower = padStartList (l.map Char.toLower) n '0' := by
  simp [padStartList, List.map_replicate]

theorem padStart_padStart (l : List Char) (n : Nat) (c : Char) (h : l.length ≤ n) :
    padStartList (padStartList l n c) n c = padStartList l n c := by
  have hl : (padStartList l n c).length = n := by
    simp [padStartList]
    omega
  have h0 : n - (padStartList l n c).length = 0 := by omega
  conv_lhs => rw [padStartList, h0]
  simp

theorem hexToBits_padStart (hex : List Char) (h : hex.length ≤ 16) :
    hexToBits (padStartList hex 16 '0') 64 = hexToBits hex 64 := by
  unfold hexToBits
  rw [map_toLower_padStart]
  have h4 : (64 : Nat) / 4 = 16 := rfl
  rw [h4, padStart_padStart _ _ _ (by simp [h])]

theorem drop_flatten_map_hexCharBits :
    ∀ (l : List Char) (k : Nat),
      ((l.map hexCharBits).flatten).drop (4 * k) = ((l.drop k).map hexCharBits).flatten := by
  intro l
  induction l with
  | nil => intro k; simp
  | cons c rest ih =>
    intro k
    cases k with
    | zero => simp
    | succ k2 =>
      simp only [List.map_cons, List.flatten_cons, List.drop_succ_cons]
      have hlen : (hexCharBits c).length = 4 := by simp [hexCharBits]
      have hsplit : 4 * (k2 + 1) = (hexCharBits c).length + 4 * k2 := by
        rw [hlen]
        ring
      rw [hsplit, List.drop_append, ih k2]

theorem hexToBits_drop_long (hex : List Char) (h : 16 ≤ hex.length) :
    hexToBits hex 64 = hexToBits (hex.drop (hex.length - 16)) 64 := by
  simp only [hexToBits]
  have hpad1 : padStartList (hex.map Char.toLower) (64 / 4) '0' = hex.map Char.toLower := by
    simp [padStartList]
    omega
  have hlen2 : (hex.drop (hex.length - 16)).length = 16 := by
    simp
    omega
  have hpad2 : padStartList ((hex.drop (hex.length - 16)).map Char.toLower) (64 / 4) '0'
      = (hex.drop (hex.length - 16)).map Char.toLower := by
    simp [padStartList, hlen2]
    omega
  rw [hpad1, hpad2]
  rw [length_flatten_hexCharBits, length_flatten_hexCharBits]
  simp only [List.length_map, hlen2]
  have he : 4 * hex.length - 64 = 4 * (hex.length - 16) := by omega
  have he2 : 4 * 16 - 64 = 4 * 0 := by omega
  rw [he, he2, drop_flatten_map_hexCharBits, drop_flatten_map_hexCharBits]
  rw [List.drop_zero, ← List.map_drop]

theorem padEnd_self (l : List Char) (h : 16 ≤ l.length) : padEndList l 16 '0' = l := by
  have h0 : 16 - l.length = 0 := by omega
  simp [padEndList, h0]

theorem padEnd_norm_short (key : List Char) (h : key.length ≤ 16) :
    (padEndList (padEndList key 16 '0') 16 '0').take 16 = (padEndList key 16 '0').take 16 := by
  have hl : (padEndList key 16 '0').length = 16 := by
    simp [padEndList]
    omega
  rw [padEnd_self _ (by omega)]

theorem padEnd_norm_long (key : List Char) (h : 16 ≤ key.length) :
    (padEndList key 16 '0').take 16 = (padEndList (key.take 16) 16 '0').take 16 := by
  have h1 : padEndList key 16 '0' = key := padEnd_self key h
  have h2 : (key.take 16).length = 16 := by
    simp
    omega
  have h3 : padEndList (key.take 16) 16 '0' = key.take 16 := padEnd_self _ (by omega)
  rw [h1, h3, List.take_take]
  simp

theorem generate_subkeys_key_norm (k1 k2 : List Char)
    (h : (padEndList k1 16 '0').take 16 = (padEndList k2 16 '0').take 16) :
    generate_subkeys k1 = generate_subkeys k2 := by
  simp only [generate_subkeys]
  rw [h]

theorem runCore_outputHex_input_congr (i1 i2 keyHex : List Char) (mode : CipherMode)
    (h : hexToBits i1 64 = hexToBits i2 64) :
    (runCore i1 keyHex mode).outputHex = (runCore i2 keyHex mode).outputHex := by
  simp only [runCore]
  rw [h]

theorem runCore_outputHex_key_congr (input k1 k2 : List Char) (mode : CipherMode)
    (h : generate_subkeys k1 = generate_subkeys k2) :
    (runCore input k1 mode).outputHex = (runCore input k2 mode).outputHex := by
  simp only [runCore]
  rw [h]

/-- C7 (amended): invalid-length raw input reaching the single-block cipher
boundary is silently normalized, never rejected: a short block hex encrypts
exactly like its left-zero-padded 16-digit form and an overlong one like its
last 16 digits; a short key behaves like its right-'0'-padded 16-digit form
and an overlong one like its first 16 digits. -/
theorem C7_silent_normalization (input keyHex : List Char) :
    (input.length ≤ 16 →
      (des_encrypt input keyHex).outputHex
        = (des_encrypt (padStartList input 16 '0') keyHex).outputHex) ∧
    (16 ≤ input.length →
      (des_encrypt input keyHex).outputHex
        = (des_encrypt (input.drop (input.length - 16)) keyHex).outputHex) ∧
    (keyHex.length ≤ 16 →
      (des_encrypt input keyHex).outputHex
        = (des_encrypt input (padEndList keyHex 16 '0')).outputHex) ∧
    (16 ≤ keyHex.length →
      (des_encrypt input keyHex).outputHex
        = (des_encrypt input (keyHex.take 16)).outputHex) := by
  refine ⟨?_, ?_, ?_, ?_⟩
  · intro h
    exact runCore_outputHex_input_congr _ _ _ _ (hexToBits_padStart input h).symm
  · intro h
    exact runCore_outputHex_input_congr _ _ _ _ (hexToBits_drop_long input h)
  · intro h
    exact runCore_outputHex_key_congr _ _ _ _
      (generate_subkeys_key_norm _ _ (padEnd_norm_short keyHex h).symm)
  · intro h
    exact runCore_outputHex_key_congr _ _ _ _
      (generate_subkeys_key_norm _ _ (padEnd_norm_long keyHex h))

/-- Witness for the amended C7 at a 4-digit block and an 18-digit key. -/
theorem C7_silent_normalization_witness :
    (des_encrypt "0123".toList "133457799bbcdff1".toList).outputHex
      = (des_encrypt (padStartList "0123".toList 16 '0') "133457799bbcdff1".toList).outputHex ∧
    (des_encrypt "0123456789abcdef".toList "133457799bbcdff1ff".toList).outputHex
      = (des_encrypt "0123456789abcdef".toList ("133457799bbcdff1ff".toList.take 16)).outputHex :=
  ⟨(C7_silent_normalization "0123".toList "133457799bbcdff1".toList).1 (by decide),
   (C7_silent_normalization "0123456789abcdef".toList "133457799bbcdff1ff".toList).2.2.2
     (by decide)⟩

/-- C7 (counterexample to the claim as stated): a 4-digit block — invalid
length — is not rejected; the cipher silently zero-extends it, producing the
same output as the padded 16-digit block, and an 18-digit key is silently
truncated to its first 16 digits.  So the cipher does not "fail fast" on
invalid-length input. -/
theorem C7_fail_fast_counterexample :
    ("0123".toList.length ≠ 16 ∧
      (des_encrypt "0123".toList "133457799bbcdff1".toList).outputHex
        = (des_encrypt "0000000000000123".toList "133457799bbcdff1".toList).outputHex) ∧
    ("133457799bbcdff1ff".toList.length ≠ 16 ∧
      (des_encrypt "0123456789abcdef".toList "133457799bbcdff1ff".toList).outputHex
        = (des_encrypt "0123456789abcdef".toList "133457799bbcdff1".toList).outputHex) := by
  constructor
  · refine ⟨by decide, ?_⟩
    have h := runCore_outputHex_input_congr "0123".toList "0000000000000123".toList
      "133457799bbcdff1".toList CipherMode.encrypt ?_
    · exact h
    · rw [← hexToBits_padStart "0123".toList (by decide)]
      rfl
  · refine ⟨by decide, ?_⟩
    apply runCore_outputHex_key_congr
    apply generate_subkeys_key_norm
    decide


/-! ## Byte/hex conversion lemmas (toward claim C3) -/

theorem getD_hexLookup_mem (v : Nat) : hexLookup.getD v '0' ∈ hexLookup := by
  by_cases h : v < hexLookup.length
  · rw [List.getD_eq_getElem _ _ h]
    exact List.getElem_mem h
  · rw [List.getD_eq_default _ _ (Nat.le_of_not_lt h)]
    decide

theorem hexCharToNat_getD_hexLookup : ∀ v : Nat, v < 16 →
    hexCharToNat (hexLookup.getD v '0') = v := by
  decide

theorem getD_hexLookup_hexCharToNat : ∀ c ∈ hexLookup,
    hexLookup.getD (hexCharToNat c) '0' = c := by
  decide

theorem length_bytesToHex (bytes : Bytes) : (bytesToHex bytes).length = 2 * bytes.length := by
  induction bytes with
  | nil => rfl
  | cons b rest ih =>
    simp only [bytesToHex, List.map_cons, List.flatten_cons, List.length_append,
      List.length_cons, List.length_nil] at ih ⊢
    omega

theorem mem_bytesToHex {bytes : Bytes} : ∀ c ∈ bytesToHex bytes, c ∈ hexLookup := by
  intro c hc
  simp only [bytesToHex, List.mem_flatten, List.mem_map] at hc
  obtain ⟨s, ⟨b, _, rfl⟩, hcs⟩ := hc
  simp only [List.mem_cons, List.not_mem_nil, or_false] at hcs
  rcases hcs with rfl | rfl <;> exact getD_hexLookup_mem _

theorem bytesToHex_cons (b : Nat) (rest : Bytes) :
    bytesToHex (b :: rest)
      = hexLookup.getD (b / 16) '0' :: hexLookup.getD (b % 16) '0' :: bytesToHex rest := by
  simp [bytesToHex]

theorem hexToBytes_cons2 (c1 c2 : Char) (t : List Char) :
    hexToBytes (c1 :: c2 :: t) = (16 * hexCharToNat c1 + hexCharToNat c2) :: hexToBytes t := rfl

theorem hexToBytes_nil : hexToBytes [] = [] := rfl

theorem hexToBytes_single (c : Char) : hexToBytes [c] = [] := rfl

theorem hexToBytes_facts_aux :
    ∀ (n : Nat) (hex : List Char), hex.length ≤ n →
      (hexToBytes hex).length = hex.length / 2 ∧ ∀ x ∈ hexToBytes hex, x < 256 := by
  intro n
  induction n with
  | zero =>
    intro hex hle
    have : hex = [] := by cases hex <;> simp_all
    subst this
    exact ⟨rfl, by intro x hx; rw [hexToBytes_nil] at hx; simp at hx⟩
  | succ k ih =>
    intro hex hle
    rcases hex with _ | ⟨c1, _ | ⟨c2, rest⟩⟩
    · exact ⟨rfl, by intro x hx; rw [hexToBytes_nil] at hx; simp at hx⟩
    · exact ⟨by rw [hexToBytes_single]; simp,
        by intro x hx; rw [hexToBytes_single] at hx; simp at hx⟩
    · have hrest := ih rest (by simp at hle; omega)
      constructor
      · rw [hexToBytes_cons2]
        simp only [List.length_cons, hrest.1]
        omega
      · intro x hx
        rw [hexToBytes_cons2] at hx
        simp only [List.mem_cons] at hx
        rcases hx with rfl | hx
        · have h1 := hexCharToNat_lt_16 c1
          have h2 := hexCharToNat_lt_16 c2
          omega
        · exact hrest.2 x hx

theorem length_hexToBytes (hex : List Char) : (hexToBytes hex).length = hex.length / 2 :=
  (hexToBytes_facts_aux hex.length hex le_rfl).1

theorem lt256_hexToBytes (hex : List Char) : ∀ x ∈ hexToBytes hex, x < 256 :=
  (hexToBytes_facts_aux hex.length hex le_rfl).2

theorem hexToBytes_bytesToHex {bytes : Bytes} (hb : ∀ x ∈ bytes, x < 256) :
    hexToBytes (bytesToHex bytes) = bytes := by
  induction bytes with
  | nil => rfl
  | cons b rest ih =>
    have hblt : b < 256 := hb b (by simp)
    rw [bytesToHex_cons, hexToBytes_cons2]
    rw [hexCharToNat_getD_hexLookup (b / 16) (by omega),
      hexCharToNat_getD_hexLookup (b % 16) (by omega)]
    have hbdm : 16 * (b / 16) + b % 16 = b := by omega
    rw [hbdm, ih (fun x hx => hb x (by simp [hx]))]

theorem bytesToHex_hexToBytes_aux :
    ∀ (n : Nat) (hex : List Char), hex.length ≤ n → hex.length % 2 = 0 →
      (∀ c ∈ hex, c ∈ hexLookup) → bytesToHex (hexToBytes hex) = hex := by
  intro n
  induction n with
  | zero =>
    intro hex hle _ _
    have : hex = [] := by cases hex <;> simp_all
    subst this
    rfl
  | succ k ih =>
    intro hex hle heven hv
    rcases hex with _ | ⟨c1, _ | ⟨c2, rest⟩⟩
    · rfl
    · simp at heven
    · have hv1 : c1 ∈ hexLookup := hv c1 (by simp)
      have hv2 : c2 ∈ hexLookup := hv c2 (by simp)
      have h1 := hexCharToNat_lt_16 c1
      have h2 := hexCharToNat_lt_16 c2
      rw [hexToBytes_cons2, bytesToHex_cons]
      have hdiv : (16 * hexCharToNat c1 + hexCharToNat c2) / 16 = hexCharToNat c1 := by
        omega
      have hmod : (16 * hexCharToNat c1 + hexCharToNat c2) % 16 = hexCharToNat c2 := by
        omega
      rw [hdiv, hmod, getD_hexLookup_hexCharToNat c1 hv1, getD_hexLookup_hexCharToNat c2 hv2]
      rw [ih rest (by simp at hle; omega) (by simp at heven ⊢; omega)
        (fun c hc => hv c (by simp [hc]))]

theorem bytesToHex_hexToBytes {hex : List Char} (heven : hex.length % 2 = 0)
    (hv : ∀ c ∈ hex, c ∈ hexLookup) : bytesToHex (hexToBytes hex) = hex :=
  bytesToHex_hexToBytes_aux hex.length hex le_rfl heven hv

theorem runCore_outputHex_length (i k : List Char) (m : CipherMode) :
    (runCore i k m).outputHex.length = 16 := by
  cases m
  · rw [runCore_outputHex_encrypt, length_bitsToHex, length_permute]
    rfl
  · rw [runCore_outputHex_decrypt, length_bitsToHex, length_permute]
    rfl

theorem runCore_outputHex_mem (i k : List Char) (m : CipherMode) :
    ∀ c ∈ (runCore i k m).outputHex, c ∈ hexLookup := by
  cases m
  · rw [runCore_outputHex_encrypt]
    exact mem_bitsToHex
  · rw [runCore_outputHex_decrypt]
    exact mem_bitsToHex

theorem length_encryptBlock (block : Bytes) (keyHex : List Char) :
    (encryptBlock block keyHex).length = 8 := by
  simp only [encryptBlock, des_encrypt, length_hexToBytes, runCore_outputHex_length]

theorem lt256_encryptBlock (block : Bytes) (keyHex : List Char) :
    ∀ x ∈ encryptBlock block keyHex, x < 256 :=
  lt256_hexToBytes _

theorem lt256_decryptBlock (block : Bytes) (keyHex : List Char) :
    ∀ x ∈ decryptBlock block keyHex, x < 256 :=
  lt256_hexToBytes _

/-- Decrypting the encryption of one 8-byte block with the same key returns
the block. -/
theorem decryptBlock_encryptBlock (block : Bytes) (keyHex : List Char)
    (hlen : block.length = 8) (hb : ∀ x ∈ block, x < 256) :
    decryptBlock (encryptBlock block keyHex) keyHex = block := by
  simp only [encryptBlock, decryptBlock]
  rw [bytesToHex_hexToBytes (by simp [des_encrypt, runCore_outputHex_length])
    (by simp only [des_encrypt]; exact runCore_outputHex_mem _ _ _)]
  rw [des_roundtrip_hex (bytesToHex block) keyHex
    (by rw [length_bytesToHex, hlen]) mem_bytesToHex]
  exact hexToBytes_bytesToHex hb


/-! ## Mode-chain lemmas -/

theorem flatten_length8 :
    ∀ (ls : List Bytes), (∀ c ∈ ls, c.length = 8) → ls.flatten.length = 8 * ls.length := by
  intro ls
  induction ls with
  | nil => intro _; rfl
  | cons c rest ih =>
    intro h
    simp only [List.flatten_cons, List.length_append, List.length_cons,
      h c (by simp), ih (fun x hx => h x (by simp [hx]))]
    ring

theorem mem_cbcEncryptBlocks_length (keyHex : List Char) :
    ∀ (chunks : List Bytes) (prev : Bytes),
      ∀ c ∈ cbcEncryptBlocks keyHex prev chunks, c.length = 8 := by
  intro chunks
  induction chunks with
  | nil => intro prev c hc; simp [cbcEncryptBlocks] at hc
  | cons b rest ih =>
    intro prev c hc
    simp only [cbcEncryptBlocks, List.mem_cons] at hc
    rcases hc with rfl | hc
    · exact length_encryptBlock _ _
    · exact ih _ c hc

theorem mem_cfbEncryptBlocks_length (keyHex : List Char) :
    ∀ (chunks : List Bytes) (feedback : Bytes),
      ∀ c ∈ cfbEncryptBlocks keyHex feedback chunks, c.length = 8 := by
  intro chunks
  induction chunks with
  | nil => intro fb c hc; simp [cfbEncryptBlocks] at hc
  | cons b rest ih =>
    intro fb c hc
    simp only [cfbEncryptBlocks, List.mem_cons] at hc
    rcases hc with rfl | hc
    · exact length_xorBlocks _ _
    · exact ih _ c hc

theorem mem_ofbEncryptBlocks_length (keyHex : List Char) :
    ∀ (chunks : List Bytes) (ofb : Bytes),
      ∀ c ∈ ofbEncryptBlocks keyHex ofb chunks, c.length = 8 := by
  intro chunks
  induction chunks with
  | nil => intro fb c hc; simp [ofbEncryptBlocks] at hc
  | cons b rest ih =>
    intro fb c hc
    simp only [ofbEncryptBlocks, List.mem_cons] at hc
    rcases hc with rfl | hc
    · exact length_xorBlocks _ _
    · exact ih _ c hc

theorem mem_ctrEncryptBlocks_length (keyHex : List Char) :
    ∀ (chunks : List Bytes) (counter : Bytes),
      ∀ c ∈ ctrEncryptBlocks keyHex counter chunks, c.length = 8 := by
  intro chunks
  induction chunks with
  | nil => intro fb c hc; simp [ctrEncryptBlocks] at hc
  | cons b rest ih =>
    intro fb c hc
    simp only [ctrEncryptBlocks, List.mem_cons] at hc
    rcases hc with rfl | hc
    · exact length_xorBlocks _ _
    · exact ih _ c hc

theorem length_cbcEncryptBlocks (keyHex : List Char) :
    ∀ (chunks : List Bytes) (prev : Bytes),
      (cbcEncryptBlocks keyHex prev chunks).length = chunks.length := by
  intro chunks
  induction chunks with
  | nil => intro prev; rfl
  | cons b rest ih =>
    intro prev
    simp only [cbcEncryptBlocks, List.length_cons, ih]

theorem length_cfbEncryptBlocks (keyHex : List Char) :
    ∀ (chunks : List Bytes) (feedback : Bytes),
      (cfbEncryptBlocks keyHex feedback chunks).length = chunks.length := by
  intro chunks
  induction chunks with
  | nil => intro fb; rfl
  | cons b rest ih =>
    intro fb
    simp only [cfbEncryptBlocks, List.length_cons, ih]

theorem length_ofbEncryptBlocks (keyHex : List Char) :
    ∀ (chunks : List Bytes) (ofb : Bytes),
      (ofbEncryptBlocks keyHex ofb chunks).length = chunks.length := by
  intro chunks
  induction chunks with
  | nil => intro fb; rfl
  | cons b rest ih =>
    intro fb
    simp only [ofbEncryptBlocks, List.length_cons, ih]

theorem length_ctrEncryptBlocks (keyHex : List Char) :
    ∀ (chunks : List Bytes) (counter : Bytes),
      (ctrEncryptBlocks keyHex counter chunks).length = chunks.length := by
  intro chunks
  induction chunks with
  | nil => intro fb; rfl
  | cons b rest ih =>
    intro fb
    simp only [ctrEncryptBlocks, List.length_cons, ih]

theorem cbcDecrypt_cbcEncrypt (keyHex : List Char) :
    ∀ (chunks : List Bytes) (prev : Bytes),
      (∀ c ∈ chunks, c.length = 8 ∧ ∀ x ∈ c, x < 256) → (∀ x ∈ prev, x < 256) →
      cbcDecryptBlocks keyHex prev (cbcEncryptBlocks keyHex prev chunks) = chunks := by
  intro chunks
  induction chunks with
  | nil => intro prev _ _; rfl
  | cons b rest ih =>
    intro prev hc hprev
    have hb := hc b (by simp)
    simp only [cbcEncryptBlocks, cbcDecryptBlocks]
    rw [decryptBlock_encryptBlock _ _ (length_xorBlocks _ _) (lt256_xorBlocks hb.2 hprev)]
    rw [xorBlocks_cancel _ hb.1]
    rw [ih _ (fun c hcc => hc c (by simp [hcc])) (lt256_encryptBlock _ _)]

theorem cfbDecrypt_cfbEncrypt (keyHex : List Char) :
    ∀ (chunks : List Bytes) (feedback : Bytes),
      (∀ c ∈ chunks, c.length = 8) →
      cfbDecryptBlocks keyHex feedback (cfbEncryptBlocks keyHex feedback chunks) = chunks := by
  intro chunks
  induction chunks with
  | nil => intro fb _; rfl
  | cons b rest ih =>
    intro fb hc
    simp only [cfbEncryptBlocks, cfbDecryptBlocks]
    rw [xorBlocks_cancel _ (hc b (by simp))]
    rw [ih _ (fun c hcc => hc c (by simp [hcc]))]

theorem ofbDecrypt_ofbEncrypt (keyHex : List Char) :
    ∀ (chunks : List Bytes) (ofb : Bytes),
      (∀ c ∈ chunks, c.length = 8) →
      ofbDecryptBlocks keyHex ofb (ofbEncryptBlocks keyHex ofb chunks) = chunks := by
  intro chunks
  induction chunks with
  | nil => intro fb _; rfl
  | cons b rest ih =>
    intro fb hc
    simp only [ofbEncryptBlocks, ofbDecryptBlocks]
    rw [xorBlocks_cancel _ (hc b (by simp))]
    rw [ih _ (fun c hcc => hc c (by simp [hcc]))]

theorem ctrDecrypt_ctrEncrypt (keyHex : List Char) :
    ∀ (chunks : List Bytes) (counter : Bytes),
      (∀ c ∈ chunks, c.length = 8) →
      ctrDecryptBlocks keyHex counter (ctrEncryptBlocks keyHex counter chunks) = chunks := by
  intro chunks
  induction chunks with
  | nil => intro fb _; rfl
  | cons b rest ih =>
    intro fb hc
    simp only [ctrEncryptBlocks, ctrDecryptBlocks]
    rw [xorBlocks_cancel _ (hc b (by simp))]
    rw [ih _ (fun c hcc => hc c (by simp [hcc]))]


/-! ## Claim C3 -/

/-- C3: for each mode (ECB, CBC, CFB, OFB, CTR), any byte payload, any key
and any fixed 8-byte IV, mode decryption of the mode encryption of the
padded payload succeeds and unpads back to the original payload (for
non-ECB modes the IV travels as the 8-byte ciphertext prefix, so the same IV
is used on both sides). -/
theorem C3_mode_roundtrip (mode : DesMode) (keyHex : List Char) (payload iv : Bytes)
    (hp : ∀ x ∈ payload, x < 256) (hiv : iv.length = 8) (hivb : ∀ x ∈ iv, x < 256) :
    ∃ ct pt,
      encryptBytesWithMode (padTo8Bytes payload) keyHex mode iv = Except.ok ct ∧
      decryptBytesWithMode ct keyHex mode = Except.ok pt ∧
      unpadPkcs pt = payload := by
  have hmod := length_padTo8Bytes_mod payload
  have hdvd : (8 : Nat) ∣ (padTo8Bytes payload).length := Nat.dvd_of_mod_eq_zero hmod
  have hne : (padTo8Bytes payload).length ≠ 0 := by
    intro h
    exact padTo8Bytes_ne_nil payload (List.eq_nil_of_length_eq_zero h)
  have hchlen : ∀ c ∈ chunkBits (padTo8Bytes payload) 8, c.length = 8 :=
    fun c hc => mem_chunkBits_length (by omega) hdvd hc
  have hpadded256 : ∀ x ∈ padTo8Bytes payload, x < 256 := by
    rw [padTo8Bytes_eq]
    intro x hx
    rcases List.mem_append.mp hx with h | h
    · exact hp x h
    · have := List.eq_of_mem_replicate h
      have hm : payload.length % 8 < 8 := Nat.mod_lt _ (by omega)
      omega
  have hch256 : ∀ c ∈ chunkBits (padTo8Bytes payload) 8, ∀ x ∈ c, x < 256 :=
    fun c hc x hx => hpadded256 x (mem_of_mem_chunkBits hc x hx)
  have hflat : (chunkBits (padTo8Bytes payload) 8).flatten = padTo8Bytes payload :=
    flatten_chunkBits (by omega) _
  have hchne : chunkBits (padTo8Bytes payload) 8 ≠ [] := by
    intro h
    rw [h] at hflat
    exact padTo8Bytes_ne_nil payload hflat.symm
  have hchpos : 0 < (chunkBits (padTo8Bytes payload) 8).length := List.length_pos.mpr hchne
  cases mode with
  | ECB =>
    have hmc : (chunkBits (padTo8Bytes payload) 8).map
        ((fun block => decryptBlock block keyHex) ∘ (fun block => encryptBlock block keyHex))
        = (chunkBits (padTo8Bytes payload) 8).map (fun c => c) := by
      apply List.map_congr_left
      intro c hc
      simp only [Function.comp_def]
      exact decryptBlock_encryptBlock c keyHex (hchlen c hc) (hch256 c hc)
    refine ⟨((chunkBits (padTo8Bytes payload) 8).map
        (fun block => encryptBlock block keyHex)).flatten, padTo8Bytes payload, ?_, ?_,
      unpadPkcs_padTo8Bytes payload⟩
    · simp only [encryptBytesWithMode]
      rw [if_neg hne]
    · simp only [decryptBytesWithMode]
      rw [chunkBits_flatten (by omega) ((chunkBits (padTo8Bytes payload) 8).map
          (fun block => encryptBlock block keyHex)) (by
        intro l hl
        rw [List.mem_map] at hl
        obtain ⟨c, _, rfl⟩ := hl
        exact length_encryptBlock _ _)]
      rw [List.map_map, hmc, List.map_id', hflat]
  | CBC =>
    have hbl : ∀ c ∈ cbcEncryptBlocks keyHex iv (chunkBits (padTo8Bytes payload) 8),
        c.length = 8 := mem_cbcEncryptBlocks_length keyHex _ iv
    have hflatlen :
        (cbcEncryptBlocks keyHex iv (chunkBits (padTo8Bytes payload) 8)).flatten.length
          = 8 * (chunkBits (padTo8Bytes payload) 8).length := by
      rw [flatten_length8 _ hbl, length_cbcEncryptBlocks]
    refine ⟨iv ++ (cbcEncryptBlocks keyHex iv (chunkBits (padTo8Bytes payload) 8)).flatten,
      padTo8Bytes payload, ?_, ?_, unpadPkcs_padTo8Bytes payload⟩
    · simp only [encryptBytesWithMode]
      rw [if_neg hne]
    · simp only [decryptBytesWithMode]
      have hlen16 : ¬ ((iv ++
          (cbcEncryptBlocks keyHex iv (chunkBits (padTo8Bytes payload) 8)).flatten).length
            < 16) := by
        simp only [List.length_append, hiv, hflatlen]
        omega
      rw [if_neg hlen16, take_append_eq_left hiv, drop_append_eq_right hiv]
      rw [chunkBits_flatten (by omega) _ hbl]
      rw [cbcDecrypt_cbcEncrypt keyHex _ iv (fun c hc => ⟨hchlen c hc, hch256 c hc⟩) hivb,
        hflat]
  | CFB =>
    have hbl : ∀ c ∈ cfbEncryptBlocks keyHex iv (chunkBits (padTo8Bytes payload) 8),
        c.length = 8 := mem_cfbEncryptBlocks_length keyHex _ iv
    have hflatlen :
        (cfbEncryptBlocks keyHex iv (chunkBits (padTo8Bytes payload) 8)).flatten.length
          = 8 * (chunkBits (padTo8Bytes payload) 8).length := by
      rw [flatten_length8 _ hbl, length_cfbEncryptBlocks]
    refine ⟨iv ++ (cfbEncryptBlocks keyHex iv (chunkBits (padTo8Bytes payload) 8)).flatten,
      padTo8Bytes payload, ?_, ?_, unpadPkcs_padTo8Bytes payload⟩
    · simp only [encryptBytesWithMode]
      rw [if_neg hne]
    · simp only [decryptBytesWithMode]
      have hlen16 : ¬ ((iv ++
          (cfbEncryptBlocks keyHex iv (chunkBits (padTo8Bytes payload) 8)).flatten).length
            < 16) := by
        simp only [List.length_append, hiv, hflatlen]
        omega
      rw [if_neg hlen16, take_append_eq_left hiv, drop_append_eq_right hiv]
      rw [chunkBits_flatten (by omega) _ hbl]
      rw [cfbDecrypt_cfbEncrypt keyHex _ iv hchlen, hflat]
  | OFB =>
    have hbl : ∀ c ∈ ofbEncryptBlocks keyHex iv (chunkBits (padTo8Bytes payload) 8),
        c.length = 8 := mem_ofbEncryptBlocks_length keyHex _ iv
    have hflatlen :
        (ofbEncryptBlocks keyHex iv (chunkBits (padTo8Bytes payload) 8)).flatten.length
          = 8 * (chunkBits (padTo8Bytes payload) 8).length := by
      rw [flatten_length8 _ hbl, length_ofbEncryptBlocks]
    refine ⟨iv ++ (ofbEncryptBlocks keyHex iv (chunkBits (padTo8Bytes payload) 8)).flatten,
      padTo8Bytes payload, ?_, ?_, unpadPkcs_padTo8Bytes payload⟩
    · simp only [encryptBytesWithMode]
      rw [if_neg hne]
    · simp only [decryptBytesWithMode]
      have hlen16 : ¬ ((iv ++
          (ofbEncryptBlocks keyHex iv (chunkBits (padTo8Bytes payload) 8)).flatten).length
            < 16) := by
        simp only [List.length_append, hiv, hflatlen]
        omega
      rw [if_neg hlen16, take_append_eq_left hiv, drop_append_eq_right hiv]
      rw [chunkBits_flatten (by omega) _ hbl]
      rw [ofbDecrypt_ofbEncrypt keyHex _ iv hchlen, hflat]
  | CTR =>
    have hbl : ∀ c ∈ ctrEncryptBlocks keyHex iv (chunkBits (padTo8Bytes payload) 8),
        c.length = 8 := mem_ctrEncryptBlocks_length keyHex _ iv
    have hflatlen :
        (ctrEncryptBlocks keyHex iv (chunkBits (padTo8Bytes payload) 8)).flatten.length
          = 8 * (chunkBits (padTo8Bytes payload) 8).length := by
      rw [flatten_length8 _ hbl, length_ctrEncryptBlocks]
    refine ⟨iv ++ (ctrEncryptBlocks keyHex iv (chunkBits (padTo8Bytes payload) 8)).flatten,
      padTo8Bytes payload, ?_, ?_, unpadPkcs_padTo8Bytes payload⟩
    · simp only [encryptBytesWithMode]
      rw [if_neg hne]
    · simp only [decryptBytesWithMode]
      have hlen16 : ¬ ((iv ++
          (ctrEncryptBlocks keyHex iv (chunkBits (padTo8Bytes payload) 8)).flatten).length
            < 16) := by
        simp only [List.length_append, hiv, hflatlen]
        omega
      rw [if_neg hlen16, take_append_eq_left hiv, drop_append_eq_right hiv]
      rw [chunkBits_flatten (by omega) _ hbl]
      rw [ctrDecrypt_ctrEncrypt keyHex _ iv hchlen, hflat]


/-- Witness for C3: CBC mode, a 2-byte payload, a fixed all-sevens IV. -/
theorem C3_mode_roundtrip_witness :
    (∀ x ∈ ([202, 254] : Bytes), x < 256) ∧ (List.replicate 8 7 : Bytes).length = 8 ∧
    (∃ ct pt,
      encryptBytesWithMode (padTo8Bytes [202, 254]) "0f1571c947d9e859".toList DesMode.CBC
        (List.replicate 8 7) = Except.ok ct ∧
      decryptBytesWithMode ct "0f1571c947d9e859".toList DesMode.CBC = Except.ok pt ∧
      unpadPkcs pt = [202, 254]) :=
  ⟨by decide, by decide,
   C3_mode_roundtrip DesMode.CBC "0f1571c947d9e859".toList [202, 254] (List.replicate 8 7)
     (by decide) (by decide) (by decide)⟩


/-! ## Diagnostic-engine lemmas and claim C4 -/

theorem find?_eq_some_of_first {α : Type} (p : α → Bool) :
    ∀ (l : List α) (i : Nat) (h : i < l.length),
      p (l.get ⟨i, h⟩) = true →
      (∀ (j : Nat) (hj : j < i), p (l.get ⟨j, Nat.lt_trans hj h⟩) = false) →
      l.find? p = some (l.get ⟨i, h⟩) := by
  intro l
  induction l with
  | nil => intro i h; simp at h
  | cons a tl ih =>
    intro i h hp hprev
    cases i with
    | zero =>
      exact List.find?_cons_of_pos _ hp
    | succ i2 =>
      have ha : p a = false := hprev 0 (Nat.succ_pos i2)
      rw [List.find?_cons_of_neg _ (by simp [ha])]
      exact ih i2 (by simpa using h) hp (fun j hj => hprev (j + 1) (by omega))

theorem patterns_credit_clamp : ∀ pat ∈ patterns, min 1 (max 0 pat.credit) = pat.credit := by
  intro pat hp
  fin_cases hp <;> norm_num [patterns]

/-- C4: the diagnostic engine returns the perfect-score "correct" result
exactly on the correct ciphertext; otherwise it scans the fixed catalog in
its fixed order and reports the first variant reproducing the submission
with that pattern's fixed credit, never a later match; with no match it
returns the zero-score unclassified result.  The catalog order and the fixed
credits (0.6 for skip-ip-fp, …, 0.2 for two-rounds-only) are pinned by the
last two conjuncts. -/
theorem C4_diagnosis (input : DiagnoseInput) :
    ((normalizeBlockHex input.studentOutputHex
        = (des_encrypt (normalizeBlockHex input.plaintextHex)
            (normalizeBlockHex input.keyHex)).outputHex) →
      (diagnoseDESSubmission input).matchedPattern = some "correct" ∧
      (diagnoseDESSubmission input).score = 1 ∧
      (diagnoseDESSubmission input).tags = ["correct"]) ∧
    (normalizeBlockHex input.studentOutputHex
        ≠ (des_encrypt (normalizeBlockHex input.plaintextHex)
            (normalizeBlockHex input.keyHex)).outputHex →
      (∀ (i : Nat) (h : i < patterns.length),
        runVariant (normalizeBlockHex input.plaintextHex) (normalizeBlockHex input.keyHex)
            (patterns.get ⟨i, h⟩).options = normalizeBlockHex input.studentOutputHex →
        (∀ (j : Nat) (hj : j < i),
          runVariant (normalizeBlockHex input.plaintextHex) (normalizeBlockHex input.keyHex)
              (patterns.get ⟨j, Nat.lt_trans hj h⟩).options
            ≠ normalizeBlockHex input.studentOutputHex) →
        (diagnoseDESSubmission input).matchedPattern = some (patterns.get ⟨i, h⟩).code ∧
        (diagnoseDESSubmission input).score = (patterns.get ⟨i, h⟩).credit ∧
        (diagnoseDESSubmission input).tags = ["incorrect", (patterns.get ⟨i, h⟩).code]) ∧
      ((∀ (i : Nat) (h : i < patterns.length),
          runVariant (normalizeBlockHex input.plaintextHex) (normalizeBlockHex input.keyHex)
              (patterns.get ⟨i, h⟩).options ≠ normalizeBlockHex input.studentOutputHex) →
        (diagnoseDESSubmission input).matchedPattern = none ∧
        (diagnoseDESSubmission input).score = 0 ∧
        (diagnoseDESSubmission input).tags = ["incorrect", "unclassified"])) ∧
    patterns.map DiagPattern.code
      = ["skip-ip-fp", "skip-ip", "no-final-swap", "swap-after-round-1", "reversed-subkeys",
         "two-rounds-only", "four-rounds-only", "all-one-bit-shifts"] ∧
    patterns.map DiagPattern.credit = [0.6, 0.5, 0.6, 0.5, 0.4, 0.2, 0.3, 0.3] := by
  refine ⟨?_, ?_, rfl, rfl⟩
  · intro heq
    simp only [diagnoseDESSubmission]
    rw [if_pos heq]
    exact ⟨rfl, rfl, rfl⟩
  · intro hne
    constructor
    · intro i h hi hfirst
      have hfind : patterns.find? (fun pattern =>
          runVariant (normalizeBlockHex input.plaintextHex) (normalizeBlockHex input.keyHex)
            pattern.options == normalizeBlockHex input.studentOutputHex)
          = some (patterns.get ⟨i, h⟩) := by
        apply find?_eq_some_of_first
        · simp only [hi, beq_self_eq_true]
        · intro j hj
          simp only [beq_eq_false_iff_ne, ne_eq]
          exact hfirst j hj
      simp only [diagnoseDESSubmission]
      rw [if_neg hne, hfind]
      refine ⟨rfl, ?_, rfl⟩
      exact patterns_credit_clamp _ (List.get_mem _ _ _)
    · intro hall
      have hfind : patterns.find? (fun pattern =>
          runVariant (normalizeBlockHex input.plaintextHex) (normalizeBlockHex input.keyHex)
            pattern.options == normalizeBlockHex input.studentOutputHex)
          = none := by
        rw [List.find?_eq_none]
        intro pat hp
        obtain ⟨⟨i, h⟩, rfl⟩ := List.mem_iff_get.mp hp
        simp only [beq_iff_eq]
        exact hall i h
      simp only [diagnoseDESSubmission]
      rw [if_neg hne, hfind]
      exact ⟨rfl, rfl, rfl⟩


/-! ## Claim C1 and the evaluated witnesses -/

set_option maxRecDepth 100000
set_option maxHeartbeats 4000000

theorem des_vector_nist :
    (des_encrypt "0123456789abcdef".toList "133457799bbcdff1".toList).outputHex
      = "85e813540f0ab405".toList := rfl

theorem des_vector_classroom :
    (des_encrypt "02468aceeca86420".toList "0f1571c947d9e859".toList).outputHex
      = "da02ce3a89ecac3b".toList := rfl

theorem des_vector_classroom_decrypt :
    (des_decrypt "da02ce3a89ecac3b".toList "0f1571c947d9e859".toList).outputHex
      = "02468aceeca86420".toList := rfl

/-- C1: single-block encryption reproduces the published test vectors: the
NIST/FIPS example and the classroom vector, including the decryption
direction. -/
theorem C1_published_vectors :
    (des_encrypt "0123456789abcdef".toList "133457799bbcdff1".toList).outputHex
      = "85e813540f0ab405".toList ∧
    (des_encrypt "02468aceeca86420".toList "0f1571c947d9e859".toList).outputHex
      = "da02ce3a89ecac3b".toList ∧
    (des_decrypt "da02ce3a89ecac3b".toList "0f1571c947d9e859".toList).outputHex
      = "02468aceeca86420".toList :=
  ⟨des_vector_nist, des_vector_classroom, des_vector_classroom_decrypt⟩

/-- Witness for C4 on the correct NIST vector submission. -/
theorem C4_diagnosis_witness :
    (diagnoseDESSubmission ⟨"0123456789abcdef".toList, "133457799bbcdff1".toList,
        "85e813540f0ab405".toList⟩).matchedPattern = some "correct" ∧
    (diagnoseDESSubmission ⟨"0123456789abcdef".toList, "133457799bbcdff1".toList,
        "85e813540f0ab405".toList⟩).score = 1 ∧
    (diagnoseDESSubmission ⟨"0123456789abcdef".toList, "133457799bbcdff1".toList,
        "85e813540f0ab405".toList⟩).tags = ["correct"] :=
  (C4_diagnosis ⟨"0123456789abcdef".toList, "133457799bbcdff1".toList,
    "85e813540f0ab405".toList⟩).1 (by decide)

end DES
